import Mathlib

/-!
Verification development for the ai-teaching-assistant repository.

The repository's core is a response-parsing and orchestration layer:
`parse_json_response` recovers a JSON object from a raw LLM completion
(`src/frontend/app.py` strips ASCII control characters, extracts the
first-`{`-to-last-`}` span with a greedy regex and JSON-decodes it;
`src/frontend/tasks.py` has a variant without the stripping step), and
orchestration functions (`generate_content`, `generate_flashcards`,
`evaluate_answer`, the questionnaire submit handler, `generate_uml`,
`evaluate_answer_task`) wire that parser to session state and external
collaborators.  This file gives a shallow embedding of those functions:
Python strings become `List Char`, decoded JSON strings become lists of
code points (`List Nat`, since Python strings may hold lone surrogates),
the LLM completion and the renderer subprocess become explicit inputs,
and `json.loads` is embedded as a fuel-indexed recursive decoder
following CPython's scanner (strict mode).
-/

namespace AiTA

/-- The character `\x7b`, kept out of string literals. -/
def lbraceC : Char := Char.ofNat 123

/-- The character `\x7d`, kept out of string literals. -/
def rbraceC : Char := Char.ofNat 125

/-- The double-quote character. -/
def quoteC : Char := Char.ofNat 34

/-- The backslash character. -/
def backslashC : Char := Char.ofNat 92

/-- Values produced by Python's `json.loads`: numbers keep their matched
lexeme (CPython's `NUMBER_RE`), strings are decoded code points, objects
are key/value pairs in dict insertion order, and the CPython extras
`NaN`, `Infinity`, `-Infinity` are separate constants. -/
inductive Json where
  | null : Json
  | bool : Bool → Json
  | num : List Char → Json
  | nanC : Json
  | infC : Json
  | ninfC : Json
  | str : List Nat → Json
  | arr : List Json → Json
  | obj : List (List Nat × Json) → Json

/-- JSON inter-token whitespace, as in CPython's decoder: space, tab,
newline, carriage return. -/
def isWsChar (c : Char) : Bool :=
  c == ' ' || c == '\t' || c == '\n' || c == '\r'

/-- Skip JSON whitespace. -/
def skipWs (s : List Char) : List Char := s.dropWhile isWsChar

/-- ASCII decimal digit. -/
def isDigitC (c : Char) : Bool := 48 ≤ c.toNat && c.toNat ≤ 57

/-- ASCII nonzero decimal digit. -/
def isNzDigit (c : Char) : Bool := 49 ≤ c.toNat && c.toNat ≤ 57

/-- Value of one hex digit, as accepted by the JSON `\uXXXX` escape. -/
def hexDigitVal (c : Char) : Option Nat :=
  if 48 ≤ c.toNat ∧ c.toNat ≤ 57 then some (c.toNat - 48)
  else if 97 ≤ c.toNat ∧ c.toNat ≤ 102 then some (c.toNat - 87)
  else if 65 ≤ c.toNat ∧ c.toNat ≤ 70 then some (c.toNat - 55)
  else none

/-- Exactly four hex digits, as in `\uXXXX`. -/
def parseHex4 : List Char → Option (Nat × List Char)
  | a :: b :: c :: d :: rest =>
    match hexDigitVal a, hexDigitVal b, hexDigitVal c, hexDigitVal d with
    | some va, some vb, some vc, some vd =>
      some (va * 4096 + vb * 256 + vc * 16 + vd, rest)
    | _, _, _, _ => none
  | _ => none

/-- One step of CPython's `scanstring` (strict mode), fuel-indexed; the
accumulator holds decoded code points in reverse.  Raw control
characters (code points below 32) are rejected; `\uXXXX` escapes combine
a high/low surrogate pair and keep a lone surrogate as-is. -/
def scanStringF : Nat → List Char → List Nat → Option (List Nat × List Char)
  | 0, _, _ => none
  | _ + 1, [], _ => none
  | f + 1, c :: rest, acc =>
    if c == quoteC then some (acc.reverse, rest)
    else if c == backslashC then
      match rest with
      | [] => none
      | e :: rest2 =>
        if e == quoteC then scanStringF f rest2 (34 :: acc)
        else if e == backslashC then scanStringF f rest2 (92 :: acc)
        else if e == '/' then scanStringF f rest2 (47 :: acc)
        else if e == 'b' then scanStringF f rest2 (8 :: acc)
        else if e == 'f' then scanStringF f rest2 (12 :: acc)
        else if e == 'n' then scanStringF f rest2 (10 :: acc)
        else if e == 'r' then scanStringF f rest2 (13 :: acc)
        else if e == 't' then scanStringF f rest2 (9 :: acc)
        else if e == 'u' then
          match parseHex4 rest2 with
          | none => none
          | some (n, rest3) =>
            if 55296 ≤ n ∧ n ≤ 56319 then
              match rest3 with
              | b1 :: u1 :: rest4 =>
                if b1 == backslashC && u1 == 'u' then
                  match parseHex4 rest4 with
                  | none => none
                  | some (m, rest5) =>
                    if 56320 ≤ m ∧ m ≤ 57343 then
                      scanStringF f rest5
                        ((65536 + (n - 55296) * 1024 + (m - 56320)) :: acc)
                    else scanStringF f rest3 (n :: acc)
                else scanStringF f rest3 (n :: acc)
              | _ => scanStringF f rest3 (n :: acc)
            else scanStringF f rest3 (n :: acc)
        else none
    else if c.toNat < 32 then none
    else scanStringF f rest (c.toNat :: acc)

/-- Scan a JSON string body (the opening quote already consumed);
returns the decoded code points and the input after the closing quote. -/
def scanString (s : List Char) : Option (List Nat × List Char) :=
  scanStringF (s.length + 1) s []

/-- The `\uXXXX` branch of `scanStringF`, restated verbatim as a named
function so proofs can analyse it in isolation; `scanStringF` on a
`\u` escape definitionally equals this body. -/
def uEscBody (f : Nat) (rest2 : List Char) (acc : List Nat) :
    Option (List Nat × List Char) :=
  match parseHex4 rest2 with
  | none => none
  | some (n, rest3) =>
    if 55296 ≤ n ∧ n ≤ 56319 then
      match rest3 with
      | b1 :: u1 :: rest4 =>
        if b1 == backslashC && u1 == 'u' then
          match parseHex4 rest4 with
          | none => none
          | some (m, rest5) =>
            if 56320 ≤ m ∧ m ≤ 57343 then
              scanStringF f rest5
                ((65536 + (n - 55296) * 1024 + (m - 56320)) :: acc)
            else scanStringF f rest3 (n :: acc)
        else scanStringF f rest3 (n :: acc)
      | _ => scanStringF f rest3 (n :: acc)
    else scanStringF f rest3 (n :: acc)

/-- Integer part of a number lexeme after the optional sign: `0` or a
nonzero digit followed by digits, per CPython's `NUMBER_RE`. -/
def matchIntRest : List Char → Option (List Char × List Char)
  | [] => none
  | c :: r =>
    if c == '0' then some ([c], r)
    else if isNzDigit c then some (c :: r.takeWhile isDigitC, r.dropWhile isDigitC)
    else none

/-- Optional fraction part `.digits+`; returns the consumed lexeme part
(empty when absent) and the rest. -/
def matchFrac : List Char → List Char × List Char
  | [] => ([], [])
  | c :: r =>
    if c == '.' then
      match r with
      | d :: _ =>
        if isDigitC d then (c :: r.takeWhile isDigitC, r.dropWhile isDigitC)
        else ([], c :: r)
      | [] => ([], c :: r)
    else ([], c :: r)

/-- Optional exponent part `[eE][+-]?digits+`; returns the consumed
lexeme part (empty when absent) and the rest. -/
def matchExp : List Char → List Char × List Char
  | [] => ([], [])
  | c :: r =>
    if c == 'e' || c == 'E' then
      match r with
      | s1 :: r2 =>
        if s1 == '+' || s1 == '-' then
          match r2 with
          | d :: _ =>
            if isDigitC d then (c :: s1 :: r2.takeWhile isDigitC, r2.dropWhile isDigitC)
            else ([], c :: r)
          | [] => ([], c :: r)
        else if isDigitC s1 then (c :: r.takeWhile isDigitC, r.dropWhile isDigitC)
        else ([], c :: r)
      | [] => ([], c :: r)
    else ([], c :: r)

/-- CPython's `NUMBER_RE` matched at the front of the input: the number
lexeme and the rest, or `none` when no number starts here. -/
def matchNumber (s : List Char) : Option (List Char × List Char) :=
  let sgn : List Char × List Char :=
    match s with
    | c :: r => if c == '-' then ([c], r) else ([], c :: r)
    | [] => ([], [])
  match matchIntRest sgn.2 with
  | none => none
  | some (ip, r1) =>
    let fp := matchFrac r1
    let ep := matchExp fp.2
    some (sgn.1 ++ ip ++ fp.1 ++ ep.1, ep.2)

/-- Python `dict` insertion for the pair list built while scanning an
object: an existing key keeps its position and takes the new value, a
new key is appended. -/
def insertPair (kvs : List (List Nat × Json)) (k : List Nat) (v : Json) :
    List (List Nat × Json) :=
  if kvs.any (fun p => p.1 == k) then
    kvs.map (fun p => if p.1 == k then (p.1, v) else p)
  else kvs ++ [(k, v)]

mutual

/-- CPython's `scan_once` on the remaining input: one JSON value and the
rest.  Leading whitespace is not skipped here (the callers skip it),
matching the scanner. -/
def parseValue : Nat → List Char → Option (Json × List Char)
  | 0, _ => none
  | _ + 1, [] => none
  | f + 1, c :: rest =>
    if c == quoteC then
      match scanString rest with
      | some (cs, r) => some (Json.str cs, r)
      | none => none
    else if c == lbraceC then parseObjectBody f rest
    else if c == '[' then parseArrayBody f rest
    else if c == 'n' then
      match rest with
      | 'u' :: 'l' :: 'l' :: r => some (Json.null, r)
      | _ => none
    else if c == 't' then
      match rest with
      | 'r' :: 'u' :: 'e' :: r => some (Json.bool true, r)
      | _ => none
    else if c == 'f' then
      match rest with
      | 'a' :: 'l' :: 's' :: 'e' :: r => some (Json.bool false, r)
      | _ => none
    else
      match matchNumber (c :: rest) with
      | some (lex, r) => some (Json.num lex, r)
      | none =>
        if c == 'N' then
          match rest with
          | 'a' :: 'N' :: r => some (Json.nanC, r)
          | _ => none
        else if c == 'I' then
          match rest with
          | 'n' :: 'f' :: 'i' :: 'n' :: 'i' :: 't' :: 'y' :: r => some (Json.infC, r)
          | _ => none
        else if c == '-' then
          match rest with
          | 'I' :: 'n' :: 'f' :: 'i' :: 'n' :: 'i' :: 't' :: 'y' :: r => some (Json.ninfC, r)
          | _ => none
        else none

/-- Object body after the opening brace: whitespace, then an empty
object or the first quoted key. -/
def parseObjectBody : Nat → List Char → Option (Json × List Char)
  | 0, _ => none
  | f + 1, s =>
    match skipWs s with
    | [] => none
    | c :: r =>
      if c == rbraceC then some (Json.obj [], r)
      else if c == quoteC then parseMembers f r []
      else none

/-- Members loop of CPython's `JSONObject`, entered just after a key's
opening quote. -/
def parseMembers : Nat → List Char → List (List Nat × Json) →
    Option (Json × List Char)
  | 0, _, _ => none
  | f + 1, s, acc =>
    match scanString s with
    | none => none
    | some (key, r1) =>
      match skipWs r1 with
      | [] => none
      | c2 :: r2 =>
        if c2 == ':' then
          match parseValue f (skipWs r2) with
          | none => none
          | some (v, r3) =>
            match skipWs r3 with
            | [] => none
            | c3 :: r4 =>
              if c3 == rbraceC then some (Json.obj (insertPair acc key v), r4)
              else if c3 == ',' then
                match skipWs r4 with
                | [] => none
                | c4 :: r5 =>
                  if c4 == quoteC then parseMembers f r5 (insertPair acc key v)
                  else none
              else none
        else none

/-- Array body after the opening bracket: whitespace, then an empty
array or the elements loop. -/
def parseArrayBody : Nat → List Char → Option (Json × List Char)
  | 0, _ => none
  | f + 1, s =>
    match skipWs s with
    | [] => none
    | c :: r =>
      if c == ']' then some (Json.arr [], r)
      else parseElems f (c :: r) []

/-- Elements loop of CPython's `JSONArray`, entered at a value. -/
def parseElems : Nat → List Char → List Json → Option (Json × List Char)
  | 0, _, _ => none
  | f + 1, s, acc =>
    match parseValue f s with
    | none => none
    | some (v, r1) =>
      match skipWs r1 with
      | [] => none
      | c :: r2 =>
        if c == ']' then some (Json.arr (acc ++ [v]), r2)
        else if c == ',' then parseElems f (skipWs r2) (acc ++ [v])
        else none

end

/-- Python's `json.loads` on the embedded input: skip leading
whitespace, scan one value, allow only trailing whitespace.  The fuel
`4 * length + 8` dominates the scanner's call depth, which consumes at
least one character per three nested calls. -/
def jsonParse (s : List Char) : Option Json :=
  match parseValue (4 * (skipWs s).length + 8) (skipWs s) with
  | some (v, rest) => if (skipWs rest).isEmpty then some v else none
  | none => none

/-- The successor-fuel body of `parseValue`, restated verbatim as a
named function so proofs can analyse one unfolding step in isolation;
`parseValue` on positive fuel and a nonempty input reduces to it by
`rfl`. -/
def parseValueBody (f : Nat) (c : Char) (rest : List Char) :
    Option (Json × List Char) :=
  if c == quoteC then
    match scanString rest with
    | some (cs, r) => some (Json.str cs, r)
    | none => none
  else if c == lbraceC then parseObjectBody f rest
  else if c == '[' then parseArrayBody f rest
  else if c == 'n' then
    match rest with
    | 'u' :: 'l' :: 'l' :: r => some (Json.null, r)
    | _ => none
  else if c == 't' then
    match rest with
    | 'r' :: 'u' :: 'e' :: r => some (Json.bool true, r)
    | _ => none
  else if c == 'f' then
    match rest with
    | 'a' :: 'l' :: 's' :: 'e' :: r => some (Json.bool false, r)
    | _ => none
  else
    match matchNumber (c :: rest) with
    | some (lex, r) => some (Json.num lex, r)
    | none =>
      if c == 'N' then
        match rest with
        | 'a' :: 'N' :: r => some (Json.nanC, r)
        | _ => none
      else if c == 'I' then
        match rest with
        | 'n' :: 'f' :: 'i' :: 'n' :: 'i' :: 't' :: 'y' :: r =>
          some (Json.infC, r)
        | _ => none
      else if c == '-' then
        match rest with
        | 'I' :: 'n' :: 'f' :: 'i' :: 'n' :: 'i' :: 't' :: 'y' :: r =>
          some (Json.ninfC, r)
        | _ => none
      else none

/-- The successor-fuel body of `parseObjectBody`, restated verbatim. -/
def parseObjectBodyB (f : Nat) (s : List Char) : Option (Json × List Char) :=
  match skipWs s with
  | [] => none
  | c :: r =>
    if c == rbraceC then some (Json.obj [], r)
    else if c == quoteC then parseMembers f r []
    else none

/-- The successor-fuel body of `parseMembers`, restated verbatim. -/
def parseMembersB (f : Nat) (s : List Char) (acc : List (List Nat × Json)) :
    Option (Json × List Char) :=
  match scanString s with
  | none => none
  | some (key, r1) =>
    match skipWs r1 with
    | [] => none
    | c2 :: r2 =>
      if c2 == ':' then
        match parseValue f (skipWs r2) with
        | none => none
        | some (v, r3) =>
          match skipWs r3 with
          | [] => none
          | c3 :: r4 =>
            if c3 == rbraceC then some (Json.obj (insertPair acc key v), r4)
            else if c3 == ',' then
              match skipWs r4 with
              | [] => none
              | c4 :: r5 =>
                if c4 == quoteC then parseMembers f r5 (insertPair acc key v)
                else none
            else none
      else none

/-- The successor-fuel body of `parseArrayBody`, restated verbatim. -/
def parseArrayBodyB (f : Nat) (s : List Char) : Option (Json × List Char) :=
  match skipWs s with
  | [] => none
  | c :: r =>
    if c == ']' then some (Json.arr [], r)
    else parseElems f (c :: r) []

/-- The successor-fuel body of `parseElems`, restated verbatim. -/
def parseElemsB (f : Nat) (s : List Char) (acc : List Json) :
    Option (Json × List Char) :=
  match parseValue f s with
  | none => none
  | some (v, r1) =>
    match skipWs r1 with
    | [] => none
    | c :: r2 =>
      if c == ']' then some (Json.arr (acc ++ [v]), r2)
      else if c == ',' then parseElems f (skipWs r2) (acc ++ [v])
      else none

/-- `re.sub` of `[\x00-\x1F]+` with the empty string: delete every
ASCII control character (code points 0 to 31). -/
def stripControl (s : List Char) : List Char :=
  s.filter (fun c => decide (31 < c.toNat))

/-- Suffix of the input starting at its first `\x7b` (empty when there
is none): where `re.search` of the greedy pattern anchors its match. -/
def spanFromFirstLb (s : List Char) : List Char :=
  s.dropWhile (fun c => !(c == lbraceC))

/-- Truncate after the last `\x7d` (empty when there is none): how far
the greedy `.*` of the pattern reaches. -/
def spanToLastRb (t : List Char) : List Char :=
  (t.reverse.dropWhile (fun c => !(c == rbraceC))).reverse

/-- `re.search` of the brace pattern with `re.DOTALL`: the span of the
input from its first `\x7b` to its last `\x7d`, or `none` when no such
span exists (then `.group()` raises and the caller's `except` catches). -/
def extractSpan (s : List Char) : Option (List Char) :=
  if (spanToLastRb (spanFromFirstLb s)).isEmpty then none
  else some (spanToLastRb (spanFromFirstLb s))

namespace App

/-- `parse_json_response` of `src/frontend/app.py`: strip control
characters, extract the brace span, JSON-decode it; any failure is
caught and returns `None`. -/
def parse_json_response (response_text : List Char) : Option Json :=
  match extractSpan (stripControl response_text) with
  | some json_str => jsonParse json_str
  | none => none

end App

namespace Tasks

/-- `parse_json_response` of `src/frontend/tasks.py`: the same brace
span extraction and JSON decode, without the control-character
stripping step. -/
def parse_json_response (response_text : List Char) : Option Json :=
  match extractSpan response_text with
  | some json_str => jsonParse json_str
  | none => none

/-- `evaluate_answer_task` of `src/frontend/tasks.py`: runs the
evaluation chain (the completion is the explicit `response_text` input)
and returns the parsed evaluation record, or `None` on parse failure. -/
def evaluate_answer_task (question student_answer response_text : List Char) :
    Option Json :=
  parse_json_response response_text

end Tasks

/-- Is a mantissa zero: every character of the number lexeme before any
exponent marker is a sign, zero digit or point.  `NUMBER_RE` forbids
leading zeros, so this matches numeric zero exactly. -/
def numIsZero (lex : List Char) : Bool :=
  (lex.takeWhile (fun c => !(c == 'e' || c == 'E'))).all
    (fun c => c == '-' || c == '0' || c == '.')

/-- Python truthiness of a decoded JSON value, as tested by the
orchestration functions' bare `if parsed:` checks. -/
def pyTruthy : Json → Bool
  | Json.null => false
  | Json.bool b => b
  | Json.num lex => !(numIsZero lex)
  | Json.nanC => true
  | Json.infC => true
  | Json.ninfC => true
  | Json.str s => !(s.isEmpty)
  | Json.arr l => !(l.isEmpty)
  | Json.obj kvs => !(kvs.isEmpty)

/-- Lookup in a decoded object's pair list (Python `dict` lookup). -/
def dictGet (kvs : List (List Nat × Json)) (k : List Nat) : Option Json :=
  match kvs.find? (fun p => p.1 == k) with
  | some p => some p.2
  | none => none

/-- Python `d.get(k)` with no default: `None` when the key is absent
(and on a non-dict value, which `parse_json_response` never returns). -/
def pyGetOpt (p : Json) (k : List Nat) : Option Json :=
  match p with
  | Json.obj kvs => dictGet kvs k
  | _ => none

/-- Python `d.get(k, default)`. -/
def pyGetD (p : Json) (k : List Nat) (d : Json) : Json :=
  match pyGetOpt p k with
  | some v => v
  | none => d

/-- Python `k in d` on a decoded object. -/
def pyHasKey (p : Json) (k : List Nat) : Bool := (pyGetOpt p k).isSome

/-- Code points of `notes`. -/
def notesKey : List Nat := (("notes").toList).map Char.toNat

/-- Code points of `questions`. -/
def questionsKey : List Nat := (("questions").toList).map Char.toNat

/-- Code points of `flashcards`. -/
def flashcardsKey : List Nat := (("flashcards").toList).map Char.toNat

/-- Code points of `score`. -/
def scoreKey : List Nat := (("score").toList).map Char.toNat

/-- Code points of `feedback`. -/
def feedbackKey : List Nat := (("feedback").toList).map Char.toNat

namespace App

/-- `generate_content` of `src/frontend/app.py`, with the completion as
the explicit `response_text` input: on a truthy parse it returns
`(parsed.get("notes", ""), parsed.get("questions", []))`, otherwise the
pair `(None, None)`. -/
def generate_content (response_text : List Char) : Option Json × Option Json :=
  match parse_json_response response_text with
  | some parsed =>
    if pyTruthy parsed then
      (some (pyGetD parsed notesKey (Json.str [])),
       some (pyGetD parsed questionsKey (Json.arr [])))
    else (none, none)
  | none => (none, none)

/-- `generate_flashcards` of `src/frontend/app.py`: returns
`parsed["flashcards"]` when the parse is truthy and the key is present,
otherwise `None`. -/
def generate_flashcards (response_text : List Char) : Option Json :=
  match parse_json_response response_text with
  | some parsed =>
    if pyTruthy parsed && pyHasKey parsed flashcardsKey then
      some (pyGetD parsed flashcardsKey Json.null)
    else none
  | none => none

/-- `evaluate_answer` of `src/frontend/app.py`: runs the evaluation
chain (the completion is the explicit `response_text` input) and parses
its response. -/
def evaluate_answer (question student_answer response_text : List Char) :
    Option Json :=
  parse_json_response response_text

end App

/-- Whitespace for Python's `str.strip()` (the ASCII and Latin-1 space
code points; further Unicode space code points behave the same way and
do not occur in the claims). -/
def isPySpace (c : Char) : Bool :=
  (9 ≤ c.toNat && c.toNat ≤ 13) || (28 ≤ c.toNat && c.toNat ≤ 32) ||
    c.toNat == 133 || c.toNat == 160

/-- Python `str.strip()`: drop leading and trailing whitespace. -/
def pyStrip (s : List Char) : List Char :=
  ((s.dropWhile isPySpace).reverse.dropWhile isPySpace).reverse

/-- One stored evaluation: the dict
`{"score": evaluation.get("score"), "feedback": evaluation.get("feedback")}`. -/
structure EvalRecord where
  score : Option Json
  feedback : Option Json

/-- Python dict assignment `evaluations[answer_key] = record` on the
session's evaluations mapping: replace in place when the key exists,
append otherwise. -/
def setEval : List (List Char × EvalRecord) → List Char → EvalRecord →
    List (List Char × EvalRecord)
  | [], k, r => [(k, r)]
  | (k2, v) :: m, k, r =>
    if k2 == k then (k2, r) :: m else (k2, v) :: setEval m k r

/-- Python dict lookup on the evaluations mapping. -/
def lookupEval : List (List Char × EvalRecord) → List Char → Option EvalRecord
  | [], _ => none
  | (k2, v) :: m, k => if k2 == k then some v else lookupEval m k

/-- How many entries of the mapping carry a given key. -/
def countKey (m : List (List Char × EvalRecord)) (k : List Char) : Nat :=
  m.countP (fun p => p.1 == k)

/-- The dict invariant on the embedded mapping: no key twice. -/
def keysNodup (m : List (List Char × EvalRecord)) : Prop :=
  ∀ k, countKey m k ≤ 1

/-- Result of one questionnaire submit-button handler run
(`src/frontend/app.py`, Questionnaire page): whether `evaluate_answer`
(and so the completion call) was invoked, whether the empty-input error
was surfaced, and the evaluations mapping afterwards. -/
structure SubmitOutcome where
  llmCalled : Bool
  emptyInputError : Bool
  evaluations : List (List Char × EvalRecord)

/-- The Questionnaire submit handler: a blank (stripped-empty) answer
surfaces the error and calls nothing; otherwise `evaluate_answer` runs
and a truthy evaluation is stored under `answer_key`, overwriting any
previous entry. -/
def submitAnswer (evaluations : List (List Char × EvalRecord))
    (answer_key question student_answer response_text : List Char) :
    SubmitOutcome :=
  if (pyStrip student_answer).isEmpty then
    SubmitOutcome.mk false true evaluations
  else
    match App.evaluate_answer question student_answer response_text with
    | some evaluation =>
      if pyTruthy evaluation then
        SubmitOutcome.mk true false
          (setEval evaluations answer_key
            (EvalRecord.mk (pyGetOpt evaluation scoreKey)
              (pyGetOpt evaluation feedbackKey)))
      else SubmitOutcome.mk true false evaluations
    | none => SubmitOutcome.mk true false evaluations

/-- The renderer subprocess and filesystem, as `generate_uml` observes
them: the exit status and captured standard error of the `plantuml`
invocation, and whether the sibling `.png` output file was produced. -/
structure RenderEnv where
  returncode : Int
  stderrText : List Char
  pngProduced : Bool

/-- What one `generate_uml` run leaves behind: the returned value
(`output_filename` or `None`), whether the temporary `.uml` file was
removed, the `st.error` text if one was surfaced, and whether the
renamed output image exists afterwards. -/
structure RenderOutcome where
  result : Option (List Char)
  tmpRemoved : Bool
  errorMessage : Option (List Char)
  outputPngExists : Bool

/-- The `st.error` text of `generate_uml`'s nonzero-exit branch, before
the decoded standard error is appended. -/
def umlErrHead : List Char := ("Error generating UML diagram: ").toList

/-- The `st.error` text of `generate_uml`'s missing-output branch. -/
def umlNotFoundMsg : List Char := ("Diagram file not found.").toList

/-- `generate_uml` of `src/frontend/app.py`: write the source to a
temporary `.uml` file, invoke the renderer, and on success rename the
produced `.png` to `output_filename`; every branch removes the
temporary file. -/
def generate_uml (env : RenderEnv) (output_filename : List Char) :
    RenderOutcome :=
  if env.returncode != 0 then
    RenderOutcome.mk none true (some (umlErrHead ++ env.stderrText)) false
  else if env.pngProduced then
    RenderOutcome.mk (some output_filename) true none true
  else
    RenderOutcome.mk none true (some umlNotFoundMsg) false

/-- The `output_filename` default and call-site argument of
`generate_uml`. -/
def diagramName : List Char := ("diagram.png").toList

/-- Does `needle` occur contiguously inside `hay`. -/
def containsSeq (hay needle : List Char) : Bool :=
  (List.range (hay.length + 1)).any (fun i => needle.isPrefixOf (hay.drop i))

/-- The regex-found span as the spec describes it: the input splits as
`a ++ u ++ c` where `a` holds no opening brace (so `u` starts at the
first one), `c` holds no closing brace (so `u` ends at the last one),
and `u` runs from an opening to a closing brace. -/
def isSpan (s u : List Char) : Prop :=
  ∃ a c, s = a ++ u ++ c ∧ (∀ x ∈ a, x ≠ lbraceC) ∧ (∀ x ∈ c, x ≠ rbraceC) ∧
    u.head? = some lbraceC ∧ u.getLast? = some rbraceC

/-- Does a substring of `t` parse as a JSON object with no padding:
first character an opening brace, last a closing brace, and a JSON
decode of the whole returning an object. -/
def isStrictObjStr (t : List Char) : Bool :=
  (match t.head? with | some c => c == lbraceC | none => false) &&
  (match t.getLast? with | some c => c == rbraceC | none => false) &&
  (match jsonParse t with | some (Json.obj _) => true | _ => false)

/-- All contiguous substrings of `s`, with multiplicity by position. -/
def substrings (s : List Char) : List (List Char) :=
  ((List.range (s.length + 1)).map
    (fun i => (List.range (s.length - i + 1)).map
      (fun l => (s.drop i).take l))).flatten

/-- How many positioned substrings of `s` are unpadded well-formed JSON
objects: the count behind "contains exactly one well-formed JSON
object". -/
def strictObjCount (s : List Char) : Nat :=
  (substrings s).countP isStrictObjStr

/-- The completion text `\x7b"a":1\x7d`. -/
def objA : List Char := [lbraceC, quoteC, 'a', quoteC, ':', '1', rbraceC]

/-- The pairs of `objA`'s object. -/
def aKvs : List (List Nat × Json) := [([97], Json.num ['1'])]

/-- The completion `x\x7b \x7b"a":1\x7d`: prose holding a stray opening
brace before a single well-formed JSON object. -/
def c1raw : List Char := 'x' :: lbraceC :: ' ' :: objA

/-- A completion with no brace span at all. -/
def helloL : List Char := ("hello").toList

/-- The completion text `\x7b"x":1\x7d`: parses, lacks every declared
key. -/
def objX : List Char := [lbraceC, quoteC, 'x', quoteC, ':', '1', rbraceC]

/-- The pairs of `objX`'s object. -/
def xKvs : List (List Nat × Json) := [([120], Json.num ['1'])]

/-- The completion `\x7b\x7d`: parses to the falsy empty object. -/
def emptyObjL : List Char := [lbraceC, rbraceC]

/-- The completion `\x7b\x01\x7d`: a control character inside the brace
span, decodable only after stripping. -/
def ctrlObjL : List Char := [lbraceC, Char.ofNat 1, rbraceC]

/-- Prose before a JSON object, without braces. -/
def surePre : List Char := ("Sure: ").toList

/-- Prose after a JSON object, without braces. -/
def doneSuf : List Char := (" done").toList

/-- A control-character-free completion with no JSON. -/
def abcL : List Char := ("abc").toList

/-- An evaluation completion with score 2 and feedback `ok`. -/
def respA : List Char :=
  [lbraceC, quoteC] ++ ("score").toList ++ [quoteC, ':', ' ', '2', ',', ' ', quoteC] ++
    ("feedback").toList ++ [quoteC, ':', ' ', quoteC] ++ ("ok").toList ++
    [quoteC, rbraceC]

/-- The decoded evaluation of `respA`. -/
def evAv : Json := Json.obj [(scoreKey, Json.num ['2']), (feedbackKey, Json.str [111, 107])]

/-- An evaluation completion with score 5 and feedback `good`. -/
def respB : List Char :=
  [lbraceC, quoteC] ++ ("score").toList ++ [quoteC, ':', ' ', '5', ',', ' ', quoteC] ++
    ("feedback").toList ++ [quoteC, ':', ' ', quoteC] ++ ("good").toList ++
    [quoteC, rbraceC]

/-- The decoded evaluation of `respB`. -/
def evBv : Json :=
  Json.obj [(scoreKey, Json.num ['5']), (feedbackKey, Json.str [103, 111, 111, 100])]

/-- The question identifier `q1`. -/
def q1Key : List Char := ("q1").toList

/-- The question identifier `q2`. -/
def q2Key : List Char := ("q2").toList

/-- An initial evaluations mapping holding an entry for `q2`. -/
def evalsInit : List (List Char × EvalRecord) := [(q2Key, EvalRecord.mk none none)]

/-- A whitespace-only student answer. -/
def blankAns : List Char := [' ', ' ', '\t']

/-- A non-blank student answer. -/
def fooAns : List Char := ("foo").toList

/-- Another non-blank student answer. -/
def barAns : List Char := ("bar").toList

/-- A question text. -/
def qTxt : List Char := ("What is photosynthesis?").toList

/-- Renderer diagnostic text used in the diagram claims. -/
def boomTxt : List Char := ("boom").toList

/-- A renderer run with nonzero exit status. -/
def envFailEnv : RenderEnv := RenderEnv.mk 1 boomTxt false

/-- A renderer run that exits 0 with diagnostics but produces no output
file. -/
def envMissingEnv : RenderEnv := RenderEnv.mk 0 boomTxt false

/-- A successful renderer run. -/
def envOkEnv : RenderEnv := RenderEnv.mk 0 [] true

/-- A pretty-printed completion `\x7b` newline `"a": 1` newline `\x7d`:
a well-formed JSON object whose inter-token whitespace includes control
characters. -/
def objPretty : List Char :=
  [lbraceC, '\n', quoteC, 'a', quoteC, ':', ' ', '1', '\n', rbraceC]

/-- Characters that could extend a number lexeme at a token boundary:
a digit, the decimal point, or an exponent marker. -/
def numExtChar (c : Char) : Prop :=
  isDigitC c = true ∨ c = '.' ∨ c = 'e' ∨ c = 'E'

/-- The input after a parsed value is strip-safe when, after control
character deletion, it does not begin with a character that could
extend a number lexeme: then deleting control characters around the
value cannot lengthen a greedy number match. -/
def tailSafe (rest : List Char) : Prop :=
  ∀ c r2, stripControl rest = c :: r2 → ¬ numExtChar c

/-- A list begins (if at all) with a character that is not a decimal
digit. -/
def headNotDigit (Y : List Char) : Prop :=
  ∀ c Y2, Y = c :: Y2 → isDigitC c = false

/-- A list begins (if at all) with a character that cannot extend a
number lexeme in any of the regex's component parts. -/
def numSafe (Y : List Char) : Prop :=
  ∀ c Y2, Y = c :: Y2 →
    isDigitC c = false ∧ (c == '.') = false ∧ (c == 'e') = false ∧
      (c == 'E') = false

/-- Control-character deletion commutes with `parseValue` at fuel `f`:
a successful scan whose rest is strip-safe replays on the stripped
input, with any fuel of at least four times its length plus one, and
consumes at least one kept character. -/
def StripPV (f : Nat) : Prop :=
  ∀ s v r, parseValue f s = some (v, r) → tailSafe r →
    (stripControl r).length < (stripControl s).length ∧
    ∀ g, 4 * (stripControl s).length + 1 ≤ g →
      parseValue g (stripControl s) = some (v, stripControl r)

/-- Strip commutation for `parseObjectBody` at fuel `f` (target fuel
margin three). -/
def StripPO (f : Nat) : Prop :=
  ∀ s v r, parseObjectBody f s = some (v, r) → tailSafe r →
    (stripControl r).length < (stripControl s).length ∧
    ∀ g, 4 * (stripControl s).length + 3 ≤ g →
      parseObjectBody g (stripControl s) = some (v, stripControl r)

/-- Strip commutation for `parseMembers` at fuel `f` (target fuel
margin six). -/
def StripPM (f : Nat) : Prop :=
  ∀ s acc v r, parseMembers f s acc = some (v, r) → tailSafe r →
    (stripControl r).length < (stripControl s).length ∧
    ∀ g, 4 * (stripControl s).length + 6 ≤ g →
      parseMembers g (stripControl s) acc = some (v, stripControl r)

/-- Strip commutation for `parseArrayBody` at fuel `f` (target fuel
margin three). -/
def StripPA (f : Nat) : Prop :=
  ∀ s v r, parseArrayBody f s = some (v, r) → tailSafe r →
    (stripControl r).length < (stripControl s).length ∧
    ∀ g, 4 * (stripControl s).length + 3 ≤ g →
      parseArrayBody g (stripControl s) = some (v, stripControl r)

/-- Strip commutation for `parseElems` at fuel `f` (target fuel margin
two). -/
def StripPE (f : Nat) : Prop :=
  ∀ s acc v r, parseElems f s acc = some (v, r) → tailSafe r →
    (stripControl r).length < (stripControl s).length ∧
    ∀ g, 4 * (stripControl s).length + 2 ≤ g →
      parseElems g (stripControl s) acc = some (v, stripControl r)

end AiTA

namespace AiTA

/-! ### Helper lemmas about the span extraction and list plumbing -/

theorem dropWhile_append_all {p : Char → Bool} (a l : List Char)
    (h : ∀ x ∈ a, p x = true) :
    List.dropWhile p (a ++ l) = List.dropWhile p l := by
  induction a with
  | nil => rfl
  | cons c a ih =>
    have hc : p c = true := h c (List.mem_cons_self _ _)
    rw [List.cons_append, List.dropWhile_cons, if_pos hc]
    exact ih (fun x hx => h x (List.mem_cons_of_mem _ hx))

theorem dropWhile_cons_false {p : Char → Bool} {x : Char} {l : List Char}
    (h : p x = false) : List.dropWhile p (x :: l) = x :: l := by
  rw [List.dropWhile_cons, if_neg (by simp [h])]

theorem dropWhile_head_false {p : Char → Bool} :
    ∀ {l x : _} {xs : List Char}, List.dropWhile p l = x :: xs → p x = false := by
  intro l
  induction l with
  | nil => intro x xs h; simp [List.dropWhile] at h
  | cons c l ih =>
    intro x xs h
    by_cases hc : p c = true
    · rw [List.dropWhile_cons, if_pos hc] at h
      exact ih h
    · have hc2 : p c = false := eq_false_of_ne_true hc
      rw [dropWhile_cons_false hc2] at h
      cases h
      exact hc2

theorem mem_takeWhile_pred {p : Char → Bool} :
    ∀ {l : List Char} {x : Char}, x ∈ List.takeWhile p l → p x = true := by
  intro l
  induction l with
  | nil => intro x h; simp [List.takeWhile] at h
  | cons c l ih =>
    intro x h
    by_cases hc : p c = true
    · rw [List.takeWhile_cons, if_pos hc] at h
      rcases List.mem_cons.mp h with h1 | h2
      · rw [h1]; exact hc
      · exact ih h2
    · rw [List.takeWhile_cons, if_neg hc] at h
      simp at h

theorem extractSpan_parts (a u c : List Char)
    (ha : ∀ x ∈ a, x ≠ lbraceC) (hc : ∀ x ∈ c, x ≠ rbraceC)
    (hh : u.head? = some lbraceC) (hl : u.getLast? = some rbraceC) :
    extractSpan (a ++ u ++ c) = some u := by
  obtain ⟨u2, rfl⟩ : ∃ u2, u = lbraceC :: u2 := by
    cases u with
    | nil => simp at hh
    | cons y ys =>
      refine ⟨ys, ?_⟩
      have : y = lbraceC := by simpa using hh
      rw [this]
  have h1 : spanFromFirstLb (a ++ (lbraceC :: u2) ++ c) = (lbraceC :: u2) ++ c := by
    unfold spanFromFirstLb
    rw [List.append_assoc,
      dropWhile_append_all a _ (fun x hx => by simp [ha x hx])]
    exact dropWhile_cons_false (by simp)
  have h2 : spanToLastRb ((lbraceC :: u2) ++ c) = lbraceC :: u2 := by
    unfold spanToLastRb
    obtain ⟨w, hw⟩ : ∃ w, (lbraceC :: u2).reverse = rbraceC :: w := by
      have hrv : (lbraceC :: u2).reverse.head? = some rbraceC := by
        rw [List.head?_reverse]; exact hl
      cases hrev : (lbraceC :: u2).reverse with
      | nil => rw [hrev] at hrv; simp at hrv
      | cons y ys =>
        rw [hrev] at hrv
        refine ⟨ys, ?_⟩
        have : y = rbraceC := by simpa using hrv
        rw [this]
    rw [List.reverse_append,
      dropWhile_append_all c.reverse _
        (fun x hx => by simp [hc x (List.mem_reverse.mp hx)]),
      hw, dropWhile_cons_false (by simp), ← hw, List.reverse_reverse]
  unfold extractSpan
  rw [h1, h2]
  simp

theorem isSpan_extractSpan {s u : List Char} (h : isSpan s u) :
    extractSpan s = some u := by
  obtain ⟨a, c, rfl, ha, hc, hh, hl⟩ := h
  exact extractSpan_parts a u c ha hc hh hl

theorem spanToLastRb_decomp (t : List Char) :
    ∃ c, t = spanToLastRb t ++ c ∧ (∀ x ∈ c, x ≠ rbraceC) := by
  refine ⟨(t.reverse.takeWhile (fun c => !(c == rbraceC))).reverse, ?_, ?_⟩
  · have h1 : spanToLastRb t ++ (t.reverse.takeWhile (fun c => !(c == rbraceC))).reverse
        = t := by
      unfold spanToLastRb
      rw [← List.reverse_append, List.takeWhile_append_dropWhile, List.reverse_reverse]
    exact h1.symm
  · intro x hx
    have := mem_takeWhile_pred (List.mem_reverse.mp hx)
    simpa using this

theorem spanToLastRb_getLast (t : List Char) (h : spanToLastRb t ≠ []) :
    (spanToLastRb t).getLast? = some rbraceC := by
  have hne : t.reverse.dropWhile (fun c => !(c == rbraceC)) ≠ [] := by
    intro h0
    apply h
    unfold spanToLastRb
    rw [h0]
    rfl
  cases hcase : t.reverse.dropWhile (fun c => !(c == rbraceC)) with
  | nil => exact absurd hcase hne
  | cons z zs =>
    have hz := dropWhile_head_false (l := t.reverse) hcase
    simp at hz
    show (t.reverse.dropWhile (fun c => !(c == rbraceC))).reverse.getLast? = some rbraceC
    rw [List.getLast?_reverse, hcase]
    simp [hz]

theorem spanFromFirstLb_head {s : List Char} {z : Char} {zs : List Char}
    (h : spanFromFirstLb s = z :: zs) : z = lbraceC := by
  have := dropWhile_head_false (l := s) (p := fun c => !(c == lbraceC)) h
  simpa using this

theorem extractSpan_isSpan {s u : List Char} (h : extractSpan s = some u) :
    isSpan s u := by
  unfold extractSpan at h
  by_cases he : (spanToLastRb (spanFromFirstLb s)).isEmpty
  · rw [if_pos he] at h; cases h
  · rw [if_neg he] at h
    have hu : spanToLastRb (spanFromFirstLb s) = u := by cases h; rfl
    have hune : u ≠ [] := by
      intro h0
      apply he
      rw [hu, h0]
      rfl
    obtain ⟨c, htc, hcprop⟩ := spanToLastRb_decomp (spanFromFirstLb s)
    rw [hu] at htc
    have hsa : s.takeWhile (fun c => !(c == lbraceC)) ++ spanFromFirstLb s = s :=
      List.takeWhile_append_dropWhile _ _
    refine ⟨s.takeWhile (fun c => !(c == lbraceC)), c, ?_, ?_, hcprop, ?_, ?_⟩
    · rw [List.append_assoc, ← htc, hsa]
    · intro x hx
      have := mem_takeWhile_pred hx
      simpa using this
    · cases hcase : u with
      | nil => exact absurd hcase hune
      | cons z zs =>
        have hz : spanFromFirstLb s = z :: (zs ++ c) := by
          rw [htc, hcase]
          rfl
        rw [spanFromFirstLb_head hz]
        rfl
    · rw [← hu]
      apply spanToLastRb_getLast
      rw [hu]
      exact hune

theorem extractSpan_iff (s u : List Char) :
    extractSpan s = some u ↔ isSpan s u :=
  ⟨extractSpan_isSpan, isSpan_extractSpan⟩

theorem filter_split_append {p : Char → Bool} :
    ∀ (s x y : List Char), s.filter p = x ++ y →
    ∃ s1 s2, s = s1 ++ s2 ∧ s1.filter p = x ∧ s2.filter p = y := by
  intro s
  induction s with
  | nil =>
    intro x y h
    rw [List.filter_nil] at h
    obtain ⟨rfl, rfl⟩ := List.append_eq_nil.mp h.symm
    exact ⟨[], [], rfl, rfl, rfl⟩
  | cons c s ih =>
    intro x y h
    by_cases hc : p c = true
    · rw [List.filter_cons, if_pos hc] at h
      cases x with
      | nil =>
        refine ⟨[], c :: s, rfl, rfl, ?_⟩
        rw [List.filter_cons, if_pos hc]
        simpa using h
      | cons xh xt =>
        rw [List.cons_append] at h
        injection h with h1 h2
        subst h1
        obtain ⟨s1, s2, rfl, hf1, hf2⟩ := ih xt y h2
        exact ⟨c :: s1, s2, rfl, by rw [List.filter_cons, if_pos hc, hf1], hf2⟩
    · have hc2 : p c = false := eq_false_of_ne_true hc
      rw [List.filter_cons, if_neg (by simp [hc2])] at h
      obtain ⟨s1, s2, rfl, hf1, hf2⟩ := ih x y h
      exact ⟨c :: s1, s2, rfl, by rw [List.filter_cons, if_neg (by simp [hc2]), hf1], hf2⟩

theorem filter_split_cons {p : Char → Bool} :
    ∀ (s : List Char) (x : Char) (xs : List Char), s.filter p = x :: xs →
    ∃ u1 u2, s = u1 ++ x :: u2 ∧ u2.filter p = xs := by
  intro s
  induction s with
  | nil => intro x xs h; rw [List.filter_nil] at h; cases h
  | cons c s ih =>
    intro x xs h
    by_cases hc : p c = true
    · rw [List.filter_cons, if_pos hc] at h
      injection h with h1 h2
      subst h1
      exact ⟨[], s, rfl, h2⟩
    · have hc2 : p c = false := eq_false_of_ne_true hc
      rw [List.filter_cons, if_neg (by simp [hc2])] at h
      obtain ⟨u1, u2, rfl, hf⟩ := ih x xs h
      exact ⟨c :: u1, u2, rfl, hf⟩

theorem shape_of_filter_shape {p : Char → Bool} {s l m r : List Char} {b1 b2 : Char}
    (h : s.filter p = l ++ b1 :: (m ++ b2 :: r)) :
    ∃ l2 m2 r2, s = l2 ++ b1 :: (m2 ++ b2 :: r2) := by
  obtain ⟨s1, s2, rfl, hf1, hf2⟩ := filter_split_append s l (b1 :: (m ++ b2 :: r)) h
  obtain ⟨u1, u2, rfl, hu⟩ := filter_split_cons s2 b1 (m ++ b2 :: r) hf2
  obtain ⟨w1, w2, rfl, hw1, hw2⟩ := filter_split_append u2 m (b2 :: r) hu
  obtain ⟨z1, z2, rfl, hz⟩ := filter_split_cons w2 b2 r hw2
  exact ⟨s1 ++ u1, w1 ++ z1, z2, by simp⟩

theorem isSpan_shape {s u : List Char} (h : isSpan s u) :
    ∃ l m r, s = l ++ lbraceC :: (m ++ rbraceC :: r) := by
  obtain ⟨a, c, rfl, _, _, hh, hl⟩ := h
  obtain ⟨u2, rfl⟩ : ∃ u2, u = lbraceC :: u2 := by
    cases u with
    | nil => simp at hh
    | cons y ys =>
      refine ⟨ys, ?_⟩
      have : y = lbraceC := by simpa using hh
      rw [this]
  obtain ⟨w, hw⟩ : ∃ w, (lbraceC :: u2).reverse = rbraceC :: w := by
    have hrv : (lbraceC :: u2).reverse.head? = some rbraceC := by
      rw [List.head?_reverse]; exact hl
    cases hrev : (lbraceC :: u2).reverse with
    | nil => rw [hrev] at hrv; simp at hrv
    | cons y ys =>
      rw [hrev] at hrv
      refine ⟨ys, ?_⟩
      have : y = rbraceC := by simpa using hrv
      rw [this]
  have hu : lbraceC :: u2 = w.reverse ++ [rbraceC] := by
    have h3 := congrArg List.reverse hw
    rw [List.reverse_reverse] at h3
    rw [h3, List.reverse_cons]
  cases hwr : w.reverse with
  | nil =>
    rw [hwr] at hu
    cases hu
  | cons v vt =>
    rw [hwr] at hu
    rw [List.cons_append] at hu
    cases hu
    refine ⟨a, vt, c, ?_⟩
    simp

theorem extractSpan_strip_none {s : List Char}
    (h : ∀ l m r, s ≠ l ++ lbraceC :: (m ++ rbraceC :: r)) :
    extractSpan (stripControl s) = none := by
  cases he : extractSpan (stripControl s) with
  | none => rfl
  | some u =>
    obtain ⟨l, m, r, hs⟩ := isSpan_shape (extractSpan_isSpan he)
    obtain ⟨l2, m2, r2, hs2⟩ :=
      shape_of_filter_shape (p := fun c => decide (31 < c.toNat)) hs
    exact absurd hs2 (h l2 m2 r2)

/-! ### Helper lemmas about the session state mapping and stripping -/

theorem pyStrip_all_space {s : List Char} (h : ∀ c ∈ s, isPySpace c = true) :
    pyStrip s = [] := by
  unfold pyStrip
  have h1 : s.dropWhile isPySpace = [] := by
    have h2 := dropWhile_append_all s [] h
    simpa using h2
  rw [h1]
  rfl

theorem lookupEval_setEval_self (m : List (List Char × EvalRecord))
    (k : List Char) (r : EvalRecord) :
    lookupEval (setEval m k r) k = some r := by
  induction m with
  | nil => simp [setEval, lookupEval]
  | cons p m ih =>
    obtain ⟨k2, v⟩ := p
    by_cases hk : (k2 == k) = true
    · simp [setEval, hk, lookupEval]
    · have hk2 : (k2 == k) = false := eq_false_of_ne_true hk
      simp [setEval, hk2, lookupEval, ih]

theorem lookupEval_setEval_ne (m : List (List Char × EvalRecord))
    (k : List Char) (r : EvalRecord) (kq : List Char) (h : kq ≠ k) :
    lookupEval (setEval m k r) kq = lookupEval m kq := by
  induction m with
  | nil => simp [setEval, lookupEval, beq_iff_eq, Ne.symm h]
  | cons p m ih =>
    obtain ⟨k2, v⟩ := p
    by_cases hk : (k2 == k) = true
    · have hk2 : k2 = k := eq_of_beq hk
      have hkq : (k2 == kq) = false := by
        simp [beq_iff_eq, hk2, Ne.symm h]
      simp [setEval, hk, lookupEval, hkq]
    · have hkf : (k2 == k) = false := eq_false_of_ne_true hk
      by_cases hq : (k2 == kq) = true
      · simp [setEval, hkf, lookupEval, hq]
      · simp [setEval, hkf, lookupEval, eq_false_of_ne_true hq, ih]

theorem countKey_cons (k2 : List Char) (v : EvalRecord)
    (m : List (List Char × EvalRecord)) (k : List Char) :
    countKey ((k2, v) :: m) k = countKey m k + (if (k2 == k) = true then 1 else 0) := by
  simp [countKey, List.countP_cons]

theorem countKey_setEval_self (m : List (List Char × EvalRecord))
    (k : List Char) (r : EvalRecord) (h : ∀ kq, countKey m kq ≤ 1) :
    countKey (setEval m k r) k = 1 := by
  induction m with
  | nil => simp [setEval, countKey, List.countP_cons]
  | cons p m ih =>
    obtain ⟨k2, v⟩ := p
    by_cases hk : (k2 == k) = true
    · have h1 := h k
      rw [countKey_cons, if_pos hk] at h1
      have h0 : countKey m k = 0 := by omega
      simp [setEval, hk, countKey_cons, h0]
    · have hkf : (k2 == k) = false := eq_false_of_ne_true hk
      have hm : ∀ kq, countKey m kq ≤ 1 := by
        intro kq
        have h2 := h kq
        rw [countKey_cons] at h2
        by_cases hq : (k2 == kq) = true
        · rw [if_pos hq] at h2; omega
        · rw [if_neg hq] at h2; omega
      simp [setEval, hkf, countKey_cons, ih hm]

theorem countKey_setEval_ne (m : List (List Char × EvalRecord))
    (k : List Char) (r : EvalRecord) (kq : List Char)
    (h : (k == kq) = false) :
    countKey (setEval m k r) kq = countKey m kq := by
  induction m with
  | nil => simp [setEval, countKey, List.countP_cons, h]
  | cons p m ih =>
    obtain ⟨k2, v⟩ := p
    by_cases hk : (k2 == k) = true
    · simp [setEval, hk, countKey_cons]
    · simp [setEval, eq_false_of_ne_true hk, countKey_cons, ih]

theorem keysNodup_setEval {m : List (List Char × EvalRecord)}
    (h : keysNodup m) (k : List Char) (r : EvalRecord) :
    keysNodup (setEval m k r) := by
  intro kq
  by_cases hq : (k == kq) = true
  · have hkq : k = kq := eq_of_beq hq
    subst hkq
    rw [countKey_setEval_self m k r h]
  · rw [countKey_setEval_ne m k r kq (eq_false_of_ne_true hq)]
    exact h kq

/-! ### A shared characterisation of the span-then-decode pipeline -/

theorem tasks_parse_characterization (s : List Char) :
    (∀ v, Tasks.parse_json_response s = some v ↔
      ∃ u, isSpan s u ∧ jsonParse u = some v) ∧
    (Tasks.parse_json_response s = none ↔
      ∀ u, isSpan s u → jsonParse u = none) := by
  cases hE : extractSpan s with
  | none =>
    have hp : Tasks.parse_json_response s = none := by
      unfold Tasks.parse_json_response
      rw [hE]
    constructor
    · intro v
      constructor
      · intro h
        rw [hp] at h
        cases h
      · rintro ⟨u, hsp, _⟩
        rw [isSpan_extractSpan hsp] at hE
        cases hE
    · constructor
      · intro _ u hsp
        rw [isSpan_extractSpan hsp] at hE
        cases hE
      · intro _
        exact hp
  | some u0 =>
    have hp : Tasks.parse_json_response s = jsonParse u0 := by
      unfold Tasks.parse_json_response
      rw [hE]
    constructor
    · intro v
      constructor
      · intro h
        refine ⟨u0, extractSpan_isSpan hE, ?_⟩
        rw [← hp]
        exact h
      · rintro ⟨u, hsp, hj⟩
        have h2 := isSpan_extractSpan hsp
        rw [hE] at h2
        injection h2 with h1
        rw [hp, h1]
        exact hj
    · constructor
      · intro h u hsp
        have h2 := isSpan_extractSpan hsp
        rw [hE] at h2
        injection h2 with h1
        rw [← h1, ← hp]
        exact h
      · intro h
        rw [hp]
        exact h u0 (extractSpan_isSpan hE)

/-! ### Control-character stripping commutes with the JSON decode

`app.py` deletes ASCII control characters before decoding.  On any
input that `jsonParse` accepts, control characters occur only as
inter-token whitespace (`scanStringF` rejects them inside strings), so
deleting them preserves the decoded value.  The next stretch of lemmas
proves this: per-token replay lemmas, then a mutual induction over the
scanner. -/

theorem stripControl_cons_kept {c : Char} (r : List Char) (h : 31 < c.toNat) :
    stripControl (c :: r) = c :: stripControl r := by
  simp [stripControl, List.filter_cons, h]

theorem stripControl_cons_dropped {c : Char} (r : List Char) (h : c.toNat ≤ 31) :
    stripControl (c :: r) = stripControl r := by
  have h2 : ¬ (31 < c.toNat) := by omega
  simp [stripControl, List.filter_cons, h2]

theorem stripControl_append (a b : List Char) :
    stripControl (a ++ b) = stripControl a ++ stripControl b := by
  simp [stripControl, List.filter_append]

theorem stripControl_all_kept {a : List Char} (h : ∀ x ∈ a, 31 < x.toNat) :
    stripControl a = a :=
  List.filter_eq_self.mpr (fun x hx => by simpa using h x hx)

theorem dropWhile_length_le {p : Char → Bool} :
    ∀ l : List Char, (List.dropWhile p l).length ≤ l.length := by
  intro l
  induction l with
  | nil => simp [List.dropWhile]
  | cons c r ih =>
    by_cases hc : p c = true
    · rw [List.dropWhile_cons, if_pos hc]
      exact Nat.le_trans ih (by rw [List.length_cons]; omega)
    · rw [dropWhile_cons_false (eq_false_of_ne_true hc)]

theorem dropWhile_nil_all {p : Char → Bool} :
    ∀ {l : List Char}, List.dropWhile p l = [] → ∀ x ∈ l, p x = true := by
  intro l
  induction l with
  | nil => intro _ x hx; simp at hx
  | cons c r ih =>
    intro h x hx
    by_cases hc : p c = true
    · rw [List.dropWhile_cons, if_pos hc] at h
      rcases List.mem_cons.mp hx with h1 | h2
      · rw [h1]; exact hc
      · exact ih h x h2
    · rw [dropWhile_cons_false (eq_false_of_ne_true hc)] at h
      cases h

theorem all_dropWhile_nil {p : Char → Bool} (l : List Char)
    (h : ∀ x ∈ l, p x = true) : List.dropWhile p l = [] := by
  have h2 := dropWhile_append_all l [] h
  simpa using h2

theorem skipWs_strip {c : Char} {r : List Char} (hc : 31 < c.toNat) :
    ∀ {s : List Char}, skipWs s = c :: r →
    skipWs (stripControl s) = c :: stripControl r := by
  intro s
  induction s with
  | nil => intro h; simp [skipWs, List.dropWhile] at h
  | cons x s ih =>
    intro h
    by_cases hx : isWsChar x = true
    · have h1 : skipWs (x :: s) = skipWs s := by
        simp [skipWs, List.dropWhile_cons, hx]
      rw [h1] at h
      by_cases hkx : 31 < x.toNat
      · rw [stripControl_cons_kept _ hkx]
        have h2 : skipWs (x :: stripControl s) = skipWs (stripControl s) := by
          simp [skipWs, List.dropWhile_cons, hx]
        rw [h2]
        exact ih h
      · rw [stripControl_cons_dropped _ (by omega)]
        exact ih h
    · have hx2 : isWsChar x = false := eq_false_of_ne_true hx
      have h1 : skipWs (x :: s) = x :: s := by
        simp [skipWs, dropWhile_cons_false hx2]
      rw [h1] at h
      injection h with e1 e2
      subst e1
      subst e2
      rw [stripControl_cons_kept _ hc]
      simp [skipWs, dropWhile_cons_false hx2]

theorem strip_skipWs {s : List Char} {c : Char} {r : List Char}
    (h : skipWs s = c :: r) (hc : 31 < c.toNat) :
    stripControl (skipWs s) = skipWs (stripControl s) := by
  rw [h, stripControl_cons_kept _ hc, skipWs_strip hc h]

theorem strip_dropWhile_le {p : Char → Bool} (l : List Char) :
    (stripControl (List.dropWhile p l)).length ≤ (stripControl l).length := by
  conv_rhs => rw [← List.takeWhile_append_dropWhile p l]
  rw [stripControl_append, List.length_append]
  omega

theorem ws_kept_is_space {x : Char} (hx : isWsChar x = true) (hk : 31 < x.toNat) :
    x = ' ' := by
  simp [isWsChar] at hx
  rcases hx with ((h | h) | h) | h
  · exact h
  · subst h; exact absurd hk (by decide)
  · subst h; exact absurd hk (by decide)
  · subst h; exact absurd hk (by decide)

theorem not_numExtChar_space : ¬ numExtChar ' ' := by
  intro h
  rcases h with h | h | h | h
  · exact absurd h (by decide)
  · exact absurd h (by decide)
  · exact absurd h (by decide)
  · exact absurd h (by decide)

theorem tailSafe_nil : tailSafe [] := by
  intro c r2 h
  simp [stripControl] at h

theorem tailSafe_of_skipWs_nil {rest : List Char} (h : skipWs rest = []) :
    tailSafe rest := by
  have hall : ∀ x ∈ rest, isWsChar x = true := dropWhile_nil_all h
  intro c r2 hc
  have hcmem : c ∈ stripControl rest := by
    rw [hc]
    exact List.mem_cons_self _ _
  have hcrest : c ∈ rest := List.mem_of_mem_filter hcmem
  have hck : 31 < c.toNat := by
    have h2 := List.of_mem_filter hcmem
    simpa using h2
  rw [ws_kept_is_space (hall c hcrest) hck]
  exact not_numExtChar_space

theorem tailSafe_of_delim {c : Char} {r : List Char} (hk : 31 < c.toNat)
    (hne : ¬ numExtChar c) :
    ∀ rest, skipWs rest = c :: r → tailSafe rest := by
  intro rest
  induction rest with
  | nil => intro h; simp [skipWs, List.dropWhile] at h
  | cons x s ih =>
    intro h c2 r2 hc2
    by_cases hx : isWsChar x = true
    · have h1 : skipWs (x :: s) = skipWs s := by
        simp [skipWs, List.dropWhile_cons, hx]
      rw [h1] at h
      by_cases hkx : 31 < x.toNat
      · rw [stripControl_cons_kept _ hkx] at hc2
        injection hc2 with e1 _
        rw [← e1, ws_kept_is_space hx hkx]
        exact not_numExtChar_space
      · rw [stripControl_cons_dropped _ (by omega)] at hc2
        exact ih h c2 r2 hc2
    · have hx2 : isWsChar x = false := eq_false_of_ne_true hx
      have h1 : skipWs (x :: s) = x :: s := by
        simp [skipWs, dropWhile_cons_false hx2]
      rw [h1] at h
      injection h with e1 _
      subst e1
      rw [stripControl_cons_kept _ hk] at hc2
      injection hc2 with f1 _
      rw [← f1]
      exact hne

theorem takeWhile_append_all {p : Char → Bool} (a l : List Char)
    (h : ∀ x ∈ a, p x = true) :
    List.takeWhile p (a ++ l) = a ++ List.takeWhile p l := by
  induction a with
  | nil => rfl
  | cons c a ih =>
    have hc : p c = true := h c (List.mem_cons_self _ _)
    rw [List.cons_append, List.takeWhile_cons, if_pos hc,
      ih (fun x hx => h x (List.mem_cons_of_mem _ hx)), List.cons_append]

theorem takeWhile_head_nil {p : Char → Bool} {X : List Char}
    (h : ∀ c X2, X = c :: X2 → p c = false) :
    List.takeWhile p X = [] := by
  cases X with
  | nil => rfl
  | cons c X2 => rw [List.takeWhile_cons, if_neg (by simp [h c X2 rfl])]

theorem dropWhile_head_id {p : Char → Bool} {X : List Char}
    (h : ∀ c X2, X = c :: X2 → p c = false) :
    List.dropWhile p X = X := by
  cases X with
  | nil => rfl
  | cons c X2 => exact dropWhile_cons_false (h c X2 rfl)

theorem isDigitC_kept {c : Char} (h : isDigitC c = true) : 31 < c.toNat := by
  simp [isDigitC] at h
  omega

theorem isNzDigit_digit {c : Char} (h : isNzDigit c = true) : isDigitC c = true := by
  simp [isNzDigit] at h
  simp [isDigitC]
  omega

theorem hexDigitVal_kept {x : Char} {v : Nat} (h : hexDigitVal x = some v) :
    31 < x.toNat := by
  unfold hexDigitVal at h
  by_cases h1 : 48 ≤ x.toNat ∧ x.toNat ≤ 57
  · omega
  · rw [if_neg h1] at h
    by_cases h2 : 97 ≤ x.toNat ∧ x.toNat ≤ 102
    · omega
    · rw [if_neg h2] at h
      by_cases h3 : 65 ≤ x.toNat ∧ x.toNat ≤ 70
      · omega
      · rw [if_neg h3] at h
        cases h

theorem parseHex4_shape {l : List Char} {n : Nat} {r : List Char}
    (h : parseHex4 l = some (n, r)) :
    ∃ a b c d, l = a :: b :: c :: d :: r ∧
      31 < a.toNat ∧ 31 < b.toNat ∧ 31 < c.toNat ∧ 31 < d.toNat ∧
      ∀ X, parseHex4 (a :: b :: c :: d :: X) = some (n, X) := by
  match l with
  | [] => simp [parseHex4] at h
  | [a] => simp [parseHex4] at h
  | [a, b] => simp [parseHex4] at h
  | [a, b, c] => simp [parseHex4] at h
  | a :: b :: c :: d :: rest =>
    unfold parseHex4 at h
    simp only [] at h
    cases ha : hexDigitVal a with
    | none => rw [ha] at h; simp at h
    | some va =>
      cases hb : hexDigitVal b with
      | none => rw [ha, hb] at h; simp at h
      | some vb =>
        cases hc : hexDigitVal c with
        | none => rw [ha, hb, hc] at h; simp at h
        | some vc =>
          cases hd : hexDigitVal d with
          | none => rw [ha, hb, hc, hd] at h; simp at h
          | some vd =>
            rw [ha, hb, hc, hd] at h
            simp at h
            obtain ⟨hn, hr⟩ := h
            refine ⟨a, b, c, d, by rw [hr], hexDigitVal_kept ha,
              hexDigitVal_kept hb, hexDigitVal_kept hc, hexDigitVal_kept hd, ?_⟩
            intro X
            unfold parseHex4
            simp only []
            rw [ha, hb, hc, hd]
            simp only []
            rw [hn]

theorem ctrl_beq_false {u d : Char} (hu : u.toNat ≤ 31) (hd : 31 < d.toNat) :
    (u == d) = false := by
  cases h : u == d
  · rfl
  · have he := eq_of_beq h
    rw [he] at hu
    exact absurd hu (by omega)

theorem scanStringF_head_kept {f : Nat} {x : Char} {l : List Char} {acc : List Nat}
    {out : List Nat × List Char} (h : scanStringF f (x :: l) acc = some out) :
    31 < x.toNat := by
  cases f with
  | zero => simp [scanStringF] at h
  | succ f =>
    by_cases h1 : (x == quoteC) = true
    · rw [eq_of_beq h1]; decide
    · by_cases h2 : (x == backslashC) = true
      · rw [eq_of_beq h2]; decide
      · by_cases h3 : x.toNat < 32
        · exfalso
          unfold scanStringF at h
          rw [if_neg h1, if_neg h2, if_pos h3] at h
          cases h
        · omega

theorem scanStringF_backslash_ctrl_none (f : Nat) {u1 : Char} (hc : u1.toNat ≤ 31)
    (l : List Char) (acc : List Nat) :
    scanStringF f (backslashC :: u1 :: l) acc = none := by
  cases f with
  | zero => rfl
  | succ f =>
    unfold scanStringF
    rw [if_neg (by decide), if_pos (by decide)]
    simp only []
    rw [if_neg (by simp [ctrl_beq_false hc (by decide : 31 < quoteC.toNat)]),
      if_neg (by simp [ctrl_beq_false hc (by decide : 31 < backslashC.toNat)]),
      if_neg (by simp [ctrl_beq_false hc (by decide : 31 < ('/').toNat)]),
      if_neg (by simp [ctrl_beq_false hc (by decide : 31 < ('b').toNat)]),
      if_neg (by simp [ctrl_beq_false hc (by decide : 31 < ('f').toNat)]),
      if_neg (by simp [ctrl_beq_false hc (by decide : 31 < ('n').toNat)]),
      if_neg (by simp [ctrl_beq_false hc (by decide : 31 < ('r').toNat)]),
      if_neg (by simp [ctrl_beq_false hc (by decide : 31 < ('t').toNat)]),
      if_neg (by simp [ctrl_beq_false hc (by decide : 31 < ('u').toNat)])]

theorem scanStringF_u_step (g : Nat) (l : List Char) (acc : List Nat) :
    scanStringF (g + 1) (backslashC :: 'u' :: l) acc = uEscBody g l acc := rfl

theorem scanStrip :
    ∀ (f : Nat) (s : List Char) (acc cs : List Nat) (r : List Char),
    scanStringF f s acc = some (cs, r) →
    (stripControl r).length < (stripControl s).length ∧
    ∀ g, (stripControl s).length < g →
      scanStringF g (stripControl s) acc = some (cs, stripControl r) := by
  intro f
  induction f with
  | zero => intro s acc cs r h; simp [scanStringF] at h
  | succ f ih =>
    intro s acc cs r h
    cases s with
    | nil => simp [scanStringF] at h
    | cons c rest =>
      have h0 := h
      unfold scanStringF at h
      by_cases h1 : (c == quoteC) = true
      · rw [if_pos h1] at h
        simp at h
        obtain ⟨hcs, hr⟩ := h
        have hq : c = quoteC := eq_of_beq h1
        have hss : stripControl (c :: rest) = c :: stripControl rest :=
          stripControl_cons_kept _ (by rw [hq]; decide)
        rw [hss, ← hr]
        constructor
        · rw [List.length_cons]; omega
        · intro g hg
          rw [List.length_cons] at hg
          obtain ⟨g0, rfl⟩ : ∃ g0, g = g0 + 1 := ⟨g - 1, by omega⟩
          unfold scanStringF
          rw [if_pos h1, hcs]
      · rw [if_neg h1] at h
        by_cases h2 : (c == backslashC) = true
        · rw [if_pos h2] at h
          have hbs : c = backslashC := eq_of_beq h2
          cases rest with
          | nil => simp at h
          | cons e rest2 =>
            simp only [] at h
            have hsc : stripControl (c :: e :: rest2) =
                c :: stripControl (e :: rest2) :=
              stripControl_cons_kept _ (by rw [hbs]; decide)
            by_cases he1 : (e == quoteC) = true
            · rw [if_pos he1] at h
              have hse : stripControl (e :: rest2) = e :: stripControl rest2 :=
                stripControl_cons_kept _ (by rw [eq_of_beq he1]; decide)
              obtain ⟨hlen, hrun⟩ := ih rest2 (34 :: acc) cs r h
              rw [hsc, hse]
              constructor
              · rw [List.length_cons, List.length_cons]; omega
              · intro g hg
                rw [List.length_cons, List.length_cons] at hg
                obtain ⟨g0, rfl⟩ : ∃ g0, g = g0 + 1 := ⟨g - 1, by omega⟩
                unfold scanStringF
                simp only [if_neg h1, if_pos h2, if_pos he1]
                exact hrun g0 (by omega)
            · rw [if_neg he1] at h
              by_cases he2 : (e == backslashC) = true
              · rw [if_pos he2] at h
                have hse : stripControl (e :: rest2) = e :: stripControl rest2 :=
                  stripControl_cons_kept _ (by rw [eq_of_beq he2]; decide)
                obtain ⟨hlen, hrun⟩ := ih rest2 (92 :: acc) cs r h
                rw [hsc, hse]
                constructor
                · rw [List.length_cons, List.length_cons]; omega
                · intro g hg
                  rw [List.length_cons, List.length_cons] at hg
                  obtain ⟨g0, rfl⟩ : ∃ g0, g = g0 + 1 := ⟨g - 1, by omega⟩
                  unfold scanStringF
                  simp only [if_neg h1, if_pos h2, if_neg he1, if_pos he2]
                  exact hrun g0 (by omega)
              · rw [if_neg he2] at h
                by_cases he3 : (e == '/') = true
                · rw [if_pos he3] at h
                  have hse : stripControl (e :: rest2) = e :: stripControl rest2 :=
                    stripControl_cons_kept _ (by rw [eq_of_beq he3]; decide)
                  obtain ⟨hlen, hrun⟩ := ih rest2 (47 :: acc) cs r h
                  rw [hsc, hse]
                  constructor
                  · rw [List.length_cons, List.length_cons]; omega
                  · intro g hg
                    rw [List.length_cons, List.length_cons] at hg
                    obtain ⟨g0, rfl⟩ : ∃ g0, g = g0 + 1 := ⟨g - 1, by omega⟩
                    unfold scanStringF
                    simp only [if_neg h1, if_pos h2, if_neg he1, if_neg he2,
                      if_pos he3]
                    exact hrun g0 (by omega)
                · rw [if_neg he3] at h
                  by_cases he4 : (e == 'b') = true
                  · rw [if_pos he4] at h
                    have hse : stripControl (e :: rest2) = e :: stripControl rest2 :=
                      stripControl_cons_kept _ (by rw [eq_of_beq he4]; decide)
                    obtain ⟨hlen, hrun⟩ := ih rest2 (8 :: acc) cs r h
                    rw [hsc, hse]
                    constructor
                    · rw [List.length_cons, List.length_cons]; omega
                    · intro g hg
                      rw [List.length_cons, List.length_cons] at hg
                      obtain ⟨g0, rfl⟩ : ∃ g0, g = g0 + 1 := ⟨g - 1, by omega⟩
                      unfold scanStringF
                      simp only [if_neg h1, if_pos h2, if_neg he1, if_neg he2,
                        if_neg he3, if_pos he4]
                      exact hrun g0 (by omega)
                  · rw [if_neg he4] at h
                    by_cases he5 : (e == 'f') = true
                    · rw [if_pos he5] at h
                      have hse : stripControl (e :: rest2) = e :: stripControl rest2 :=
                        stripControl_cons_kept _ (by rw [eq_of_beq he5]; decide)
                      obtain ⟨hlen, hrun⟩ := ih rest2 (12 :: acc) cs r h
                      rw [hsc, hse]
                      constructor
                      · rw [List.length_cons, List.length_cons]; omega
                      · intro g hg
                        rw [List.length_cons, List.length_cons] at hg
                        obtain ⟨g0, rfl⟩ : ∃ g0, g = g0 + 1 := ⟨g - 1, by omega⟩
                        unfold scanStringF
                        simp only [if_neg h1, if_pos h2, if_neg he1, if_neg he2,
                          if_neg he3, if_neg he4, if_pos he5]
                        exact hrun g0 (by omega)
                    · rw [if_neg he5] at h
                      by_cases he6 : (e == 'n') = true
                      · rw [if_pos he6] at h
                        have hse : stripControl (e :: rest2) = e :: stripControl rest2 :=
                          stripControl_cons_kept _ (by rw [eq_of_beq he6]; decide)
                        obtain ⟨hlen, hrun⟩ := ih rest2 (10 :: acc) cs r h
                        rw [hsc, hse]
                        constructor
                        · rw [List.length_cons, List.length_cons]; omega
                        · intro g hg
                          rw [List.length_cons, List.length_cons] at hg
                          obtain ⟨g0, rfl⟩ : ∃ g0, g = g0 + 1 := ⟨g - 1, by omega⟩
                          unfold scanStringF
                          simp only [if_neg h1, if_pos h2, if_neg he1, if_neg he2,
                            if_neg he3, if_neg he4, if_neg he5, if_pos he6]
                          exact hrun g0 (by omega)
                      · rw [if_neg he6] at h
                        by_cases he7 : (e == 'r') = true
                        · rw [if_pos he7] at h
                          have hse : stripControl (e :: rest2) = e :: stripControl rest2 :=
                            stripControl_cons_kept _ (by rw [eq_of_beq he7]; decide)
                          obtain ⟨hlen, hrun⟩ := ih rest2 (13 :: acc) cs r h
                          rw [hsc, hse]
                          constructor
                          · rw [List.length_cons, List.length_cons]; omega
                          · intro g hg
                            rw [List.length_cons, List.length_cons] at hg
                            obtain ⟨g0, rfl⟩ : ∃ g0, g = g0 + 1 := ⟨g - 1, by omega⟩
                            unfold scanStringF
                            simp only [if_neg h1, if_pos h2, if_neg he1, if_neg he2,
                              if_neg he3, if_neg he4, if_neg he5, if_neg he6,
                              if_pos he7]
                            exact hrun g0 (by omega)
                        · rw [if_neg he7] at h
                          by_cases he8 : (e == 't') = true
                          · rw [if_pos he8] at h
                            have hse : stripControl (e :: rest2) = e :: stripControl rest2 :=
                              stripControl_cons_kept _ (by rw [eq_of_beq he8]; decide)
                            obtain ⟨hlen, hrun⟩ := ih rest2 (9 :: acc) cs r h
                            rw [hsc, hse]
                            constructor
                            · rw [List.length_cons, List.length_cons]; omega
                            · intro g hg
                              rw [List.length_cons, List.length_cons] at hg
                              obtain ⟨g0, rfl⟩ : ∃ g0, g = g0 + 1 := ⟨g - 1, by omega⟩
                              unfold scanStringF
                              simp only [if_neg h1, if_pos h2, if_neg he1, if_neg he2,
                                if_neg he3, if_neg he4, if_neg he5, if_neg he6,
                                if_neg he7, if_pos he8]
                              exact hrun g0 (by omega)
                          · rw [if_neg he8] at h
                            by_cases he9 : (e == 'u') = true
                            · have heu : e = 'u' := eq_of_beq he9
                              subst heu
                              subst hbs
                              rw [scanStringF_u_step] at h0
                              unfold uEscBody at h0
                              have hss : stripControl (backslashC :: 'u' :: rest2) =
                                  backslashC :: 'u' :: stripControl rest2 := by
                                rw [stripControl_cons_kept _ (by decide),
                                  stripControl_cons_kept _ (by decide)]
                              cases hhex : parseHex4 rest2 with
                              | none =>
                                rw [hhex] at h0
                                simp at h0
                              | some nv =>
                                obtain ⟨n, rest3⟩ := nv
                                rw [hhex] at h0
                                simp only [] at h0
                                obtain ⟨a, b, c4, d, hshape, ka, kb, kc, kd, hreplay⟩ :=
                                  parseHex4_shape hhex
                                have hstrip2 : stripControl rest2 =
                                    a :: b :: c4 :: d :: stripControl rest3 := by
                                  rw [hshape, stripControl_cons_kept _ ka,
                                    stripControl_cons_kept _ kb,
                                    stripControl_cons_kept _ kc,
                                    stripControl_cons_kept _ kd]
                                by_cases hsur : 55296 ≤ n ∧ n ≤ 56319
                                · rw [if_pos hsur] at h0
                                  cases rest3 with
                                  | nil =>
                                    simp only [] at h0
                                    rw [show scanStringF f ([] : List Char) (n :: acc) =
                                        none from by cases f <;> rfl] at h0
                                    cases h0
                                  | cons b1 t3 =>
                                    cases t3 with
                                    | nil =>
                                      simp only [] at h0
                                      have hkb1 : 31 < b1.toNat := scanStringF_head_kept h0
                                      obtain ⟨hlen, hrun⟩ := ih [b1] (n :: acc) cs r h0
                                      have hsb1 : stripControl [b1] = [b1] :=
                                        stripControl_cons_kept _ hkb1
                                      rw [hsb1] at hlen hrun
                                      constructor
                                      · rw [hss, hstrip2, hsb1]
                                        simp only [List.length_cons, List.length_nil]
                                          at hlen ⊢
                                        omega
                                      · intro g hg
                                        rw [hss, hstrip2, hsb1] at hg
                                        simp only [List.length_cons, List.length_nil] at hg
                                        obtain ⟨g0, rfl⟩ : ∃ g0, g = g0 + 1 :=
                                          ⟨g - 1, by omega⟩
                                        rw [hss, scanStringF_u_step]
                                        unfold uEscBody
                                        rw [hstrip2, hsb1]
                                        simp only [hreplay]
                                        rw [if_pos hsur]
                                        exact hrun g0 (by
                                          simp only [List.length_cons, List.length_nil]
                                          omega)
                                    | cons u1 rest4 =>
                                      simp only [] at h0
                                      by_cases hpair :
                                          (b1 == backslashC && u1 == 'u') = true
                                      · rw [if_pos hpair] at h0
                                        simp only [Bool.and_eq_true] at hpair
                                        obtain ⟨hpb, hpu⟩ := hpair
                                        have hb1e : b1 = backslashC := eq_of_beq hpb
                                        have hu1e : u1 = 'u' := eq_of_beq hpu
                                        subst hb1e
                                        subst hu1e
                                        cases hhex2 : parseHex4 rest4 with
                                        | none =>
                                          rw [hhex2] at h0
                                          simp at h0
                                        | some mv =>
                                          obtain ⟨m, rest5⟩ := mv
                                          rw [hhex2] at h0
                                          simp only [] at h0
                                          obtain ⟨a2, b2, c2, d2, hshape2, ka2, kb2, kc2,
                                            kd2, hreplay2⟩ := parseHex4_shape hhex2
                                          have hstrip4 : stripControl rest4 =
                                              a2 :: b2 :: c2 :: d2 :: stripControl rest5 := by
                                            rw [hshape2, stripControl_cons_kept _ ka2,
                                              stripControl_cons_kept _ kb2,
                                              stripControl_cons_kept _ kc2,
                                              stripControl_cons_kept _ kd2]
                                          have hstrip3 :
                                              stripControl (backslashC :: 'u' :: rest4) =
                                              backslashC :: 'u' :: stripControl rest4 := by
                                            rw [stripControl_cons_kept _ (by decide),
                                              stripControl_cons_kept _ (by decide)]
                                          by_cases hlow : 56320 ≤ m ∧ m ≤ 57343
                                          · rw [if_pos hlow] at h0
                                            obtain ⟨hlen, hrun⟩ := ih rest5 _ cs r h0
                                            constructor
                                            · rw [hss, hstrip2, hstrip3, hstrip4]
                                              simp only [List.length_cons] at hlen ⊢
                                              omega
                                            · intro g hg
                                              rw [hss, hstrip2, hstrip3, hstrip4] at hg
                                              simp only [List.length_cons] at hg
                                              obtain ⟨g0, rfl⟩ : ∃ g0, g = g0 + 1 :=
                                                ⟨g - 1, by omega⟩
                                              rw [hss, scanStringF_u_step]
                                              unfold uEscBody
                                              rw [hstrip2, hstrip3, hstrip4]
                                              simp only [hreplay]
                                              rw [if_pos hsur]
                                              rw [if_pos (by decide :
                                                (backslashC == backslashC && 'u' == 'u') =
                                                  true)]
                                              simp only [hreplay2]
                                              rw [if_pos hlow]
                                              exact hrun g0 (by omega)
                                          · rw [if_neg hlow] at h0
                                            obtain ⟨hlen, hrun⟩ :=
                                              ih (backslashC :: 'u' :: rest4) (n :: acc)
                                                cs r h0
                                            rw [hstrip3, hstrip4] at hlen hrun
                                            constructor
                                            · rw [hss, hstrip2, hstrip3, hstrip4]
                                              simp only [List.length_cons] at hlen ⊢
                                              omega
                                            · intro g hg
                                              rw [hss, hstrip2, hstrip3, hstrip4] at hg
                                              simp only [List.length_cons] at hg
                                              obtain ⟨g0, rfl⟩ : ∃ g0, g = g0 + 1 :=
                                                ⟨g - 1, by omega⟩
                                              rw [hss, scanStringF_u_step]
                                              unfold uEscBody
                                              rw [hstrip2, hstrip3, hstrip4]
                                              simp only [hreplay]
                                              rw [if_pos hsur]
                                              rw [if_pos (by decide :
                                                (backslashC == backslashC && 'u' == 'u') =
                                                  true)]
                                              simp only [hreplay2]
                                              rw [if_neg hlow]
                                              exact hrun g0 (by
                                                simp only [List.length_cons]
                                                omega)
                                      · rw [if_neg hpair] at h0
                                        have hkb1 : 31 < b1.toNat :=
                                          scanStringF_head_kept h0
                                        by_cases hb1bs : (b1 == backslashC) = true
                                        · have hb1e : b1 = backslashC := eq_of_beq hb1bs
                                          subst hb1e
                                          by_cases hku1 : 31 < u1.toNat
                                          · obtain ⟨hlen, hrun⟩ :=
                                              ih (backslashC :: u1 :: rest4) (n :: acc)
                                                cs r h0
                                            have hstrip3 :
                                                stripControl (backslashC :: u1 :: rest4) =
                                                backslashC :: u1 :: stripControl rest4 := by
                                              rw [stripControl_cons_kept _ (by decide),
                                                stripControl_cons_kept _ hku1]
                                            rw [hstrip3] at hlen hrun
                                            constructor
                                            · rw [hss, hstrip2, hstrip3]
                                              simp only [List.length_cons] at hlen ⊢
                                              omega
                                            · intro g hg
                                              rw [hss, hstrip2, hstrip3] at hg
                                              simp only [List.length_cons] at hg
                                              obtain ⟨g0, rfl⟩ : ∃ g0, g = g0 + 1 :=
                                                ⟨g - 1, by omega⟩
                                              rw [hss, scanStringF_u_step]
                                              unfold uEscBody
                                              rw [hstrip2, hstrip3]
                                              simp only [hreplay]
                                              rw [if_pos hsur]
                                              rw [if_neg hpair]
                                              exact hrun g0 (by
                                                simp only [List.length_cons]
                                                omega)
                                          · rw [scanStringF_backslash_ctrl_none f
                                              (by omega) rest4 (n :: acc)] at h0
                                            cases h0
                                        · have hb1f : (b1 == backslashC) = false :=
                                            eq_false_of_ne_true hb1bs
                                          obtain ⟨hlen, hrun⟩ :=
                                            ih (b1 :: u1 :: rest4) (n :: acc) cs r h0
                                          have hstrip3 :
                                              stripControl (b1 :: u1 :: rest4) =
                                              b1 :: stripControl (u1 :: rest4) :=
                                            stripControl_cons_kept _ hkb1
                                          rw [hstrip3] at hlen hrun
                                          constructor
                                          · rw [hss, hstrip2, hstrip3]
                                            simp only [List.length_cons] at hlen ⊢
                                            omega
                                          · intro g hg
                                            rw [hss, hstrip2, hstrip3] at hg
                                            simp only [List.length_cons] at hg
                                            obtain ⟨g0, rfl⟩ : ∃ g0, g = g0 + 1 :=
                                              ⟨g - 1, by omega⟩
                                            rw [hss, scanStringF_u_step]
                                            unfold uEscBody
                                            rw [hstrip2, hstrip3]
                                            simp only [hreplay]
                                            rw [if_pos hsur]
                                            cases hX : stripControl (u1 :: rest4) with
                                            | nil =>
                                              rw [hX] at hrun hg
                                              simp only []
                                              exact hrun g0 (by
                                                simp only [List.length_cons,
                                                  List.length_nil] at hg ⊢
                                                omega)
                                            | cons w ws =>
                                              rw [hX] at hrun hg
                                              simp only []
                                              have hpf :
                                                  ¬((b1 == backslashC && w == 'u') =
                                                    true) := by
                                                simp [hb1f]
                                              rw [if_neg hpf]
                                              exact hrun g0 (by
                                                simp only [List.length_cons] at hg ⊢
                                                omega)
                                · rw [if_neg hsur] at h0
                                  obtain ⟨hlen, hrun⟩ := ih rest3 (n :: acc) cs r h0
                                  constructor
                                  · rw [hss, hstrip2]
                                    simp only [List.length_cons] at hlen ⊢
                                    omega
                                  · intro g hg
                                    rw [hss, hstrip2] at hg
                                    simp only [List.length_cons] at hg
                                    obtain ⟨g0, rfl⟩ : ∃ g0, g = g0 + 1 :=
                                      ⟨g - 1, by omega⟩
                                    rw [hss, scanStringF_u_step]
                                    unfold uEscBody
                                    rw [hstrip2]
                                    simp only [hreplay]
                                    rw [if_neg hsur]
                                    exact hrun g0 (by omega)
                            · rw [if_neg he9] at h
                              cases h
        · rw [if_neg h2] at h
          by_cases h3 : c.toNat < 32
          · rw [if_pos h3] at h
            cases h
          · rw [if_neg h3] at h
            have hck : 31 < c.toNat := by omega
            have hss : stripControl (c :: rest) = c :: stripControl rest :=
              stripControl_cons_kept _ hck
            obtain ⟨hlen, hrun⟩ := ih rest (c.toNat :: acc) cs r h
            rw [hss]
            constructor
            · rw [List.length_cons]; omega
            · intro g hg
              rw [List.length_cons] at hg
              obtain ⟨g0, rfl⟩ : ∃ g0, g = g0 + 1 := ⟨g - 1, by omega⟩
              unfold scanStringF
              rw [if_neg h1, if_neg h2, if_neg h3]
              exact hrun g0 (by omega)

theorem tailSafe_head {rest : List Char} (hts : tailSafe rest) :
    ∀ c X2, stripControl rest = c :: X2 →
      isDigitC c = false ∧ (c == '.') = false ∧ (c == 'e') = false ∧
        (c == 'E') = false := by
  intro c X2 h
  have h2 := hts c X2 h
  refine ⟨?_, ?_, ?_, ?_⟩
  · cases hd : isDigitC c
    · rfl
    · exact absurd (Or.inl hd) h2
  · cases hd : c == '.'
    · rfl
    · exact absurd (Or.inr (Or.inl (eq_of_beq hd))) h2
  · cases hd : c == 'e'
    · rfl
    · exact absurd (Or.inr (Or.inr (Or.inl (eq_of_beq hd)))) h2
  · cases hd : c == 'E'
    · rfl
    · exact absurd (Or.inr (Or.inr (Or.inr (eq_of_beq hd)))) h2

theorem matchIntRest_strip {s ip r1 : List Char}
    (h : matchIntRest s = some (ip, r1)) :
    s = ip ++ r1 ∧ (∃ c0 ip2, ip = c0 :: ip2 ∧ isDigitC c0 = true) ∧
    (∀ x ∈ ip, isDigitC x = true) ∧
    ∀ Y, headNotDigit Y → matchIntRest (ip ++ Y) = some (ip, Y) := by
  cases s with
  | nil => simp [matchIntRest] at h
  | cons c t =>
    unfold matchIntRest at h
    simp only [] at h
    by_cases h0 : (c == '0') = true
    · rw [if_pos h0] at h
      rw [Option.some.injEq, Prod.mk.injEq] at h
      obtain ⟨hip, hr1⟩ := h
      subst hip
      subst hr1
      have hc : c = '0' := eq_of_beq h0
      refine ⟨rfl, ⟨c, [], rfl, by rw [hc]; decide⟩, ?_, ?_⟩
      · intro x hx
        simp at hx
        subst hx
        rw [hc]; decide
      · intro Y hY
        have key : matchIntRest (c :: Y) = some ([c], Y) := by
          unfold matchIntRest
          simp only []
          rw [if_pos h0]
        simpa using key
    · rw [if_neg h0] at h
      by_cases h1 : isNzDigit c = true
      · rw [if_pos h1] at h
        rw [Option.some.injEq, Prod.mk.injEq] at h
        obtain ⟨hip, hr1⟩ := h
        subst hip
        subst hr1
        have htw : ∀ x ∈ t.takeWhile isDigitC, isDigitC x = true :=
          fun x hx => mem_takeWhile_pred hx
        refine ⟨?_, ⟨c, _, rfl, isNzDigit_digit h1⟩, ?_, ?_⟩
        · rw [List.cons_append, List.takeWhile_append_dropWhile]
        · intro x hx
          rcases List.mem_cons.mp hx with hx | hx
          · subst hx; exact isNzDigit_digit h1
          · exact htw x hx
        · intro Y hY
          have hY' : ∀ a Y2, Y = a :: Y2 → isDigitC a = false := hY
          have key : matchIntRest (c :: (t.takeWhile isDigitC ++ Y)) =
              some (c :: t.takeWhile isDigitC, Y) := by
            unfold matchIntRest
            simp only []
            rw [if_neg h0, if_pos h1,
              takeWhile_append_all _ Y htw, takeWhile_head_nil hY',
              dropWhile_append_all _ Y htw, dropWhile_head_id hY',
              List.append_nil]
          simpa using key
      · rw [if_neg h1] at h
        cases h

theorem matchFrac_head_ne {Y : List Char}
    (h : ∀ c Y2, Y = c :: Y2 → (c == '.') = false) : matchFrac Y = ([], Y) := by
  cases Y with
  | nil => rfl
  | cons c Y2 =>
    unfold matchFrac
    simp only []
    rw [if_neg (by simp [h c Y2 rfl])]

theorem matchExp_head_ne {Y : List Char}
    (h : ∀ c Y2, Y = c :: Y2 → (c == 'e') = false ∧ (c == 'E') = false) :
    matchExp Y = ([], Y) := by
  cases Y with
  | nil => rfl
  | cons c Y2 =>
    obtain ⟨h1, h2⟩ := h c Y2 rfl
    unfold matchExp
    simp only []
    rw [if_neg (by simp [h1, h2])]

theorem matchFrac_strip {r1 fp r2 : List Char} (h : matchFrac r1 = (fp, r2)) :
    r1 = fp ++ r2 ∧ (∀ x ∈ fp, 31 < x.toNat) ∧
    (fp = [] ∨ ((∃ fp2, fp = '.' :: fp2) ∧
      ∀ Y, headNotDigit Y → matchFrac (fp ++ Y) = (fp, Y))) := by
  cases r1 with
  | nil =>
    unfold matchFrac at h
    simp only [] at h
    rw [Prod.mk.injEq] at h
    obtain ⟨h1, h2⟩ := h
    subst h1
    subst h2
    exact ⟨rfl, by simp, Or.inl rfl⟩
  | cons c t =>
    unfold matchFrac at h
    simp only [] at h
    by_cases hdot : (c == '.') = true
    · rw [if_pos hdot] at h
      cases t with
      | nil =>
        simp only [] at h
        rw [Prod.mk.injEq] at h
        obtain ⟨h1, h2⟩ := h
        subst h1
        subst h2
        exact ⟨rfl, by simp, Or.inl rfl⟩
      | cons d t2 =>
        simp only [] at h
        by_cases hd : isDigitC d = true
        · rw [if_pos hd] at h
          rw [Prod.mk.injEq] at h
          obtain ⟨h1, h2⟩ := h
          subst h1
          subst h2
          have hdc : c = '.' := eq_of_beq hdot
          have hall : ∀ x ∈ (d :: t2).takeWhile isDigitC, isDigitC x = true :=
            fun x hx => mem_takeWhile_pred hx
          refine ⟨?_, ?_, Or.inr ⟨⟨_, by rw [hdc]⟩, ?_⟩⟩
          · rw [List.cons_append, List.takeWhile_append_dropWhile]
          · intro x hx
            rcases List.mem_cons.mp hx with hx | hx
            · subst hx; rw [hdc]; decide
            · exact isDigitC_kept (hall x hx)
          · intro Y hY
            have hY' : ∀ a Y2, Y = a :: Y2 → isDigitC a = false := hY
            have htwc : (d :: t2).takeWhile isDigitC =
                d :: t2.takeWhile isDigitC := by
              rw [List.takeWhile_cons, if_pos (by simp [hd])]
            have htw2 : ∀ x ∈ t2.takeWhile isDigitC, isDigitC x = true :=
              fun x hx => mem_takeWhile_pred hx
            have key : matchFrac (c :: ((d :: t2.takeWhile isDigitC) ++ Y)) =
                (c :: (d :: t2.takeWhile isDigitC), Y) := by
              rw [List.cons_append]
              unfold matchFrac
              simp only []
              rw [if_pos hdot, if_pos hd]
              rw [List.takeWhile_cons, if_pos (by simp [hd]),
                List.dropWhile_cons, if_pos (by simp [hd]),
                takeWhile_append_all _ Y htw2, takeWhile_head_nil hY',
                dropWhile_append_all _ Y htw2, dropWhile_head_id hY',
                List.append_nil]
            rw [htwc]
            simpa using key
        · rw [if_neg hd] at h
          rw [Prod.mk.injEq] at h
          obtain ⟨h1, h2⟩ := h
          subst h1
          subst h2
          exact ⟨rfl, by simp, Or.inl rfl⟩
    · rw [if_neg hdot] at h
      rw [Prod.mk.injEq] at h
      obtain ⟨h1, h2⟩ := h
      subst h1
      subst h2
      exact ⟨rfl, by simp, Or.inl rfl⟩

theorem matchExp_strip {r2 ep r : List Char} (h : matchExp r2 = (ep, r)) :
    r2 = ep ++ r ∧ (∀ x ∈ ep, 31 < x.toNat) ∧
    (ep = [] ∨ ((∃ e0 ep2, ep = e0 :: ep2 ∧ (e0 = 'e' ∨ e0 = 'E')) ∧
      ∀ Y, headNotDigit Y → matchExp (ep ++ Y) = (ep, Y))) := by
  cases r2 with
  | nil =>
    unfold matchExp at h
    simp only [] at h
    rw [Prod.mk.injEq] at h
    obtain ⟨h1, h2⟩ := h
    subst h1
    subst h2
    exact ⟨rfl, by simp, Or.inl rfl⟩
  | cons c t =>
    unfold matchExp at h
    simp only [] at h
    by_cases hce : (c == 'e' || c == 'E') = true
    · rw [if_pos hce] at h
      have hc2 : c = 'e' ∨ c = 'E' := by
        rcases Bool.or_eq_true_iff.mp hce with hb | hb
        · exact Or.inl (eq_of_beq hb)
        · exact Or.inr (eq_of_beq hb)
      have hck : 31 < c.toNat := by
        rcases hc2 with hc | hc <;> (rw [hc]; decide)
      cases t with
      | nil =>
        simp only [] at h
        rw [Prod.mk.injEq] at h
        obtain ⟨h1, h2⟩ := h
        subst h1
        subst h2
        exact ⟨rfl, by simp, Or.inl rfl⟩
      | cons s1 t2 =>
        simp only [] at h
        by_cases hs1 : (s1 == '+' || s1 == '-') = true
        · rw [if_pos hs1] at h
          have hs1k : 31 < s1.toNat := by
            rcases Bool.or_eq_true_iff.mp hs1 with hb | hb <;>
              (rw [eq_of_beq hb]; decide)
          cases t2 with
          | nil =>
            simp only [] at h
            rw [Prod.mk.injEq] at h
            obtain ⟨h1, h2⟩ := h
            subst h1
            subst h2
            exact ⟨rfl, by simp, Or.inl rfl⟩
          | cons d t3 =>
            simp only [] at h
            by_cases hd : isDigitC d = true
            · rw [if_pos hd] at h
              rw [Prod.mk.injEq] at h
              obtain ⟨h1, h2⟩ := h
              subst h1
              subst h2
              have hall : ∀ x ∈ (d :: t3).takeWhile isDigitC,
                  isDigitC x = true := fun x hx => mem_takeWhile_pred hx
              refine ⟨?_, ?_, Or.inr ⟨⟨c, _, rfl, hc2⟩, ?_⟩⟩
              · rw [List.cons_append, List.cons_append,
                  List.takeWhile_append_dropWhile]
              · intro x hx
                rcases List.mem_cons.mp hx with hx | hx
                · subst hx; exact hck
                rcases List.mem_cons.mp hx with hx | hx
                · subst hx; exact hs1k
                · exact isDigitC_kept (hall x hx)
              · intro Y hY
                have hY' : ∀ a Y2, Y = a :: Y2 → isDigitC a = false := hY
                have htwc : (d :: t3).takeWhile isDigitC =
                    d :: t3.takeWhile isDigitC := by
                  rw [List.takeWhile_cons, if_pos (by simp [hd])]
                have htw3 : ∀ x ∈ t3.takeWhile isDigitC, isDigitC x = true :=
                  fun x hx => mem_takeWhile_pred hx
                have key : matchExp
                    (c :: s1 :: ((d :: t3.takeWhile isDigitC) ++ Y)) =
                    (c :: s1 :: (d :: t3.takeWhile isDigitC), Y) := by
                  rw [List.cons_append]
                  unfold matchExp
                  simp only []
                  rw [if_pos hce, if_pos hs1, if_pos hd]
                  rw [List.takeWhile_cons, if_pos (by simp [hd]),
                    List.dropWhile_cons, if_pos (by simp [hd]),
                    takeWhile_append_all _ Y htw3, takeWhile_head_nil hY',
                    dropWhile_append_all _ Y htw3, dropWhile_head_id hY',
                    List.append_nil]
                rw [htwc]
                simpa using key
            · rw [if_neg hd] at h
              rw [Prod.mk.injEq] at h
              obtain ⟨h1, h2⟩ := h
              subst h1
              subst h2
              exact ⟨rfl, by simp, Or.inl rfl⟩
        · rw [if_neg hs1] at h
          by_cases hds : isDigitC s1 = true
          · rw [if_pos hds] at h
            rw [Prod.mk.injEq] at h
            obtain ⟨h1, h2⟩ := h
            subst h1
            subst h2
            have hall : ∀ x ∈ (s1 :: t2).takeWhile isDigitC,
                isDigitC x = true := fun x hx => mem_takeWhile_pred hx
            refine ⟨?_, ?_, Or.inr ⟨⟨c, _, rfl, hc2⟩, ?_⟩⟩
            · rw [List.cons_append, List.takeWhile_append_dropWhile]
            · intro x hx
              rcases List.mem_cons.mp hx with hx | hx
              · subst hx; exact hck
              · exact isDigitC_kept (hall x hx)
            · intro Y hY
              have hY' : ∀ a Y2, Y = a :: Y2 → isDigitC a = false := hY
              have htwc : (s1 :: t2).takeWhile isDigitC =
                  s1 :: t2.takeWhile isDigitC := by
                rw [List.takeWhile_cons, if_pos (by simp [hds])]
              have htw2 : ∀ x ∈ t2.takeWhile isDigitC, isDigitC x = true :=
                fun x hx => mem_takeWhile_pred hx
              have key : matchExp (c :: ((s1 :: t2.takeWhile isDigitC) ++ Y)) =
                  (c :: (s1 :: t2.takeWhile isDigitC), Y) := by
                rw [List.cons_append]
                unfold matchExp
                simp only []
                rw [if_pos hce, if_neg hs1, if_pos hds]
                rw [List.takeWhile_cons, if_pos (by simp [hds]),
                  List.dropWhile_cons, if_pos (by simp [hds]),
                  takeWhile_append_all _ Y htw2, takeWhile_head_nil hY',
                  dropWhile_append_all _ Y htw2, dropWhile_head_id hY',
                  List.append_nil]
              rw [htwc]
              simpa using key
          · rw [if_neg hds] at h
            rw [Prod.mk.injEq] at h
            obtain ⟨h1, h2⟩ := h
            subst h1
            subst h2
            exact ⟨rfl, by simp, Or.inl rfl⟩
    · rw [if_neg hce] at h
      rw [Prod.mk.injEq] at h
      obtain ⟨h1, h2⟩ := h
      subst h1
      subst h2
      exact ⟨rfl, by simp, Or.inl rfl⟩

theorem numParts_replay {t ip r1 fpL r2 epL r : List Char}
    (hint : matchIntRest t = some (ip, r1))
    (hfrac : matchFrac r1 = (fpL, r2))
    (hexp : matchExp r2 = (epL, r))
    (Y : List Char) (hY : numSafe Y) :
    t = ip ++ (fpL ++ (epL ++ r)) ∧
    (∃ c0 ip2, ip = c0 :: ip2 ∧ isDigitC c0 = true) ∧
    (∀ x ∈ ip ++ (fpL ++ epL), 31 < x.toNat) ∧
    matchIntRest (ip ++ (fpL ++ (epL ++ Y))) = some (ip, fpL ++ (epL ++ Y)) ∧
    matchFrac (fpL ++ (epL ++ Y)) = (fpL, epL ++ Y) ∧
    matchExp (epL ++ Y) = (epL, Y) := by
  obtain ⟨ht, hhead, hipmem, hirep⟩ := matchIntRest_strip hint
  obtain ⟨hr1, hfmem, hfcase⟩ := matchFrac_strip hfrac
  obtain ⟨hr2, hemem, hecase⟩ := matchExp_strip hexp
  have hYnd : headNotDigit Y := fun c Y2 hc => (hY c Y2 hc).1
  have hE : matchExp (epL ++ Y) = (epL, Y) := by
    rcases hecase with he | ⟨_, herep⟩
    · subst he
      simp only [List.nil_append]
      exact matchExp_head_ne
        (fun c Y2 hc => ⟨(hY c Y2 hc).2.2.1, (hY c Y2 hc).2.2.2⟩)
    · exact herep Y hYnd
  have hndEY : headNotDigit (epL ++ Y) := by
    rcases hecase with he | ⟨⟨e0, ep2, hep, he0⟩, _⟩
    · subst he
      intro c Y2 hc
      rw [List.nil_append] at hc
      exact hYnd c Y2 hc
    · subst hep
      intro c Y2 hc
      rw [List.cons_append] at hc
      injection hc with hc1 _
      subst hc1
      rcases he0 with he0 | he0 <;> (subst he0; decide)
  have hF : matchFrac (fpL ++ (epL ++ Y)) = (fpL, epL ++ Y) := by
    rcases hfcase with hf | ⟨_, hfrep⟩
    · subst hf
      simp only [List.nil_append]
      refine matchFrac_head_ne ?_
      rcases hecase with he | ⟨⟨e0, ep2, hep, he0⟩, _⟩
      · subst he
        intro c Y2 hc
        rw [List.nil_append] at hc
        exact (hY c Y2 hc).2.1
      · subst hep
        intro c Y2 hc
        rw [List.cons_append] at hc
        injection hc with hc1 _
        subst hc1
        rcases he0 with he0 | he0 <;> (subst he0; decide)
    · exact hfrep (epL ++ Y) hndEY
  have hndFEY : headNotDigit (fpL ++ (epL ++ Y)) := by
    rcases hfcase with hf | ⟨⟨fp2, hfp⟩, _⟩
    · subst hf
      intro c Y2 hc
      rw [List.nil_append] at hc
      exact hndEY c Y2 hc
    · subst hfp
      intro c Y2 hc
      rw [List.cons_append] at hc
      injection hc with hc1 _
      subst hc1
      decide
  refine ⟨?_, hhead, ?_, hirep _ hndFEY, hF, hE⟩
  · rw [ht, hr1, hr2]
  · intro x hx
    rcases List.mem_append.mp hx with hx | hx
    · exact isDigitC_kept (hipmem x hx)
    · rcases List.mem_append.mp hx with hx | hx
      · exact hfmem x hx
      · exact hemem x hx

theorem matchNumber_strip {s0 lex r : List Char}
    (h : matchNumber s0 = some (lex, r)) (hts : tailSafe r) :
    lex ≠ [] ∧ s0 = lex ++ r ∧ (∀ x ∈ lex, 31 < x.toNat) ∧
    matchNumber (stripControl s0) = some (lex, stripControl r) := by
  have hY : numSafe (stripControl r) :=
    fun c Y2 hc => tailSafe_head hts c Y2 hc
  cases s0 with
  | nil => simp [matchNumber, matchIntRest] at h
  | cons c t =>
    unfold matchNumber at h
    simp only [] at h
    by_cases hm : (c == '-') = true
    · rw [if_pos hm] at h
      simp only [] at h
      cases hint : matchIntRest t with
      | none => rw [hint] at h; simp at h
      | some v =>
        obtain ⟨ip, r1⟩ := v
        rw [hint] at h
        simp only [] at h
        rcases hfrac : matchFrac r1 with ⟨fpL, r2⟩
        rw [hfrac] at h
        simp only [] at h
        rcases hexp : matchExp r2 with ⟨epL, rr⟩
        rw [hexp] at h
        simp only [] at h
        rw [Option.some.injEq, Prod.mk.injEq] at h
        obtain ⟨hlex, hr⟩ := h
        subst hr
        subst hlex
        obtain ⟨ht, hhead, hkept, hI, hF, hE⟩ :=
          numParts_replay hint hfrac hexp (stripControl rr) hY
        have hck : 31 < c.toNat := by rw [eq_of_beq hm]; decide
        have hip' : ∀ x ∈ ip, 31 < x.toNat :=
          fun x hx => hkept x (List.mem_append.mpr (Or.inl hx))
        have hfp' : ∀ x ∈ fpL, 31 < x.toNat :=
          fun x hx => hkept x
            (List.mem_append.mpr (Or.inr (List.mem_append.mpr (Or.inl hx))))
        have hep' : ∀ x ∈ epL, 31 < x.toNat :=
          fun x hx => hkept x
            (List.mem_append.mpr (Or.inr (List.mem_append.mpr (Or.inr hx))))
        refine ⟨by simp, ?_, ?_, ?_⟩
        · rw [ht]
          simp [List.append_assoc]
        · intro x hx
          simp only [List.mem_append, List.mem_singleton] at hx
          rcases hx with ((hx | hx) | hx) | hx
          · subst hx; exact hck
          · exact hip' x hx
          · exact hfp' x hx
          · exact hep' x hx
        · have hstrip : stripControl (c :: t) =
              c :: (ip ++ (fpL ++ (epL ++ stripControl rr))) := by
            rw [stripControl_cons_kept _ hck, ht, stripControl_append,
              stripControl_append, stripControl_append,
              stripControl_all_kept hip', stripControl_all_kept hfp',
              stripControl_all_kept hep']
          rw [hstrip]
          unfold matchNumber
          simp only []
          rw [if_pos hm]
          simp only []
          rw [hI]
          simp only []
          rw [hF]
          simp only []
          rw [hE]
    · rw [if_neg hm] at h
      simp only [] at h
      cases hint : matchIntRest (c :: t) with
      | none => rw [hint] at h; simp at h
      | some v =>
        obtain ⟨ip, r1⟩ := v
        rw [hint] at h
        simp only [] at h
        rcases hfrac : matchFrac r1 with ⟨fpL, r2⟩
        rw [hfrac] at h
        simp only [] at h
        rcases hexp : matchExp r2 with ⟨epL, rr⟩
        rw [hexp] at h
        simp only [] at h
        rw [Option.some.injEq, Prod.mk.injEq] at h
        obtain ⟨hlex, hr⟩ := h
        subst hr
        subst hlex
        obtain ⟨ht, hhead, hkept, hI, hF, hE⟩ :=
          numParts_replay hint hfrac hexp (stripControl rr) hY
        have hip' : ∀ x ∈ ip, 31 < x.toNat :=
          fun x hx => hkept x (List.mem_append.mpr (Or.inl hx))
        have hfp' : ∀ x ∈ fpL, 31 < x.toNat :=
          fun x hx => hkept x
            (List.mem_append.mpr (Or.inr (List.mem_append.mpr (Or.inl hx))))
        have hep' : ∀ x ∈ epL, 31 < x.toNat :=
          fun x hx => hkept x
            (List.mem_append.mpr (Or.inr (List.mem_append.mpr (Or.inr hx))))
        obtain ⟨c0, ip2, hip0, hc0d⟩ := hhead
        have hc0m : (c0 == '-') = false := by
          cases hb : c0 == '-'
          · rfl
          · exfalso
            rw [eq_of_beq hb] at hc0d
            exact absurd hc0d (by decide)
        refine ⟨by simp [hip0], ?_, ?_, ?_⟩
        · rw [ht]
          simp [List.append_assoc]
        · intro x hx
          simp only [List.mem_append, List.not_mem_nil, false_or] at hx
          rcases hx with (hx | hx) | hx
          · exact hip' x hx
          · exact hfp' x hx
          · exact hep' x hx
        · have hstrip : stripControl (c :: t) =
              ip ++ (fpL ++ (epL ++ stripControl rr)) := by
            rw [ht, stripControl_append, stripControl_append,
              stripControl_append, stripControl_all_kept hip',
              stripControl_all_kept hfp', stripControl_all_kept hep']
          rw [hip0, List.cons_append] at hI
          rw [hstrip, hip0, List.cons_append]
          unfold matchNumber
          simp only []
          rw [if_neg (by simp [hc0m])]
          simp only []
          rw [hI]
          simp only []
          rw [hF]
          simp only []
          rw [hE]

theorem matchNumber_none_head {c : Char} (h0 : (c == '-') = false)
    (h1 : (c == '0') = false) (h2 : isNzDigit c = false) (t : List Char) :
    matchNumber (c :: t) = none := by
  unfold matchNumber
  simp only []
  rw [if_neg (by simp [h0])]
  simp only []
  rw [show matchIntRest (c :: t) = none from by
    unfold matchIntRest
    simp only []
    rw [if_neg (by simp [h1]), if_neg (by simp [h2])]]

theorem matchNumber_minus_none {t : List Char}
    (hc : ∀ d t2, t = d :: t2 → (d == '0') = false ∧ isNzDigit d = false) :
    matchNumber ('-' :: t) = none := by
  unfold matchNumber
  simp only []
  rw [if_pos (by decide)]
  simp only []
  have hnone : matchIntRest t = none := by
    cases t with
    | nil => rfl
    | cons d t2 =>
      obtain ⟨h1, h2⟩ := hc d t2 rfl
      unfold matchIntRest
      simp only []
      rw [if_neg (by simp [h1]), if_neg (by simp [h2])]
  rw [hnone]

theorem not_numExtChar_of {c : Char} (h1 : isDigitC c = false)
    (h2 : c ≠ '.') (h3 : c ≠ 'e') (h4 : c ≠ 'E') : ¬ numExtChar c := by
  intro h
  rcases h with h | h | h | h
  · rw [h] at h1; cases h1
  · exact h2 h
  · exact h3 h
  · exact h4 h

theorem strip_skipWs_le (s : List Char) :
    (stripControl (skipWs s)).length ≤ (stripControl s).length :=
  strip_dropWhile_le s

theorem parseValue_cons_eq (f : Nat) (c : Char) (rest : List Char) :
    parseValue (f + 1) (c :: rest) = parseValueBody f c rest := rfl

theorem parseObjectBody_succ_eq (f : Nat) (s : List Char) :
    parseObjectBody (f + 1) s = parseObjectBodyB f s := rfl

theorem parseMembers_succ_eq (f : Nat) (s : List Char)
    (acc : List (List Nat × Json)) :
    parseMembers (f + 1) s acc = parseMembersB f s acc := rfl

theorem parseArrayBody_succ_eq (f : Nat) (s : List Char) :
    parseArrayBody (f + 1) s = parseArrayBodyB f s := rfl

theorem parseElems_succ_eq (f : Nat) (s : List Char) (acc : List Json) :
    parseElems (f + 1) s acc = parseElemsB f s acc := rfl

theorem parseValue_nil_none (f : Nat) : parseValue f [] = none := by
  cases f <;> rfl

theorem parseElems_nil_none (f : Nat) (acc : List Json) :
    parseElems f [] acc = none := by
  cases f with
  | zero => rfl
  | succ f =>
    rw [parseElems_succ_eq]
    unfold parseElemsB
    rw [parseValue_nil_none]

theorem matchNumber_head_kept {c : Char} {t lex r : List Char}
    (h : matchNumber (c :: t) = some (lex, r)) : 31 < c.toNat := by
  by_cases hm : (c == '-') = true
  · rw [eq_of_beq hm]; decide
  · unfold matchNumber at h
    simp only [] at h
    rw [if_neg hm] at h
    simp only [] at h
    cases hint : matchIntRest (c :: t) with
    | none => rw [hint] at h; simp at h
    | some p =>
      obtain ⟨ip, r1⟩ := p
      obtain ⟨hdec, ⟨c0, ip2, hip, hd⟩, _, _⟩ := matchIntRest_strip hint
      rw [hip, List.cons_append] at hdec
      injection hdec with h1 _
      rw [h1]
      exact isDigitC_kept hd

theorem parseValue_head_kept {f : Nat} {c : Char} {rest : List Char}
    {out : Json × List Char} (h : parseValue f (c :: rest) = some out) :
    31 < c.toNat := by
  cases f with
  | zero => rw [show parseValue 0 (c :: rest) = none from rfl] at h; cases h
  | succ f =>
    rw [parseValue_cons_eq] at h
    unfold parseValueBody at h
    by_cases h1 : (c == quoteC) = true
    · rw [eq_of_beq h1]; decide
    · by_cases h2 : (c == lbraceC) = true
      · rw [eq_of_beq h2]; decide
      · by_cases h3 : (c == '[') = true
        · rw [eq_of_beq h3]; decide
        · by_cases h4 : (c == 'n') = true
          · rw [eq_of_beq h4]; decide
          · by_cases h5 : (c == 't') = true
            · rw [eq_of_beq h5]; decide
            · by_cases h6 : (c == 'f') = true
              · rw [eq_of_beq h6]; decide
              · rw [if_neg h1, if_neg h2, if_neg h3, if_neg h4, if_neg h5,
                  if_neg h6] at h
                cases hmn : matchNumber (c :: rest) with
                | some p =>
                  obtain ⟨lex, r⟩ := p
                  exact matchNumber_head_kept hmn
                | none =>
                  rw [hmn] at h
                  simp only [] at h
                  by_cases h7 : (c == 'N') = true
                  · rw [eq_of_beq h7]; decide
                  · by_cases h8 : (c == 'I') = true
                    · rw [eq_of_beq h8]; decide
                    · by_cases h9 : (c == '-') = true
                      · rw [eq_of_beq h9]; decide
                      · rw [if_neg h7, if_neg h8, if_neg h9] at h
                        cases h

theorem parseElems_head_kept {f : Nat} {c : Char} {rest : List Char}
    {acc : List Json} {out : Json × List Char}
    (h : parseElems f (c :: rest) acc = some out) : 31 < c.toNat := by
  cases f with
  | zero => rw [show parseElems 0 (c :: rest) acc = none from rfl] at h; cases h
  | succ f =>
    rw [parseElems_succ_eq] at h
    unfold parseElemsB at h
    cases hpv : parseValue f (c :: rest) with
    | none => rw [hpv] at h; cases h
    | some q => exact parseValue_head_kept hpv

theorem stripValue_step (f : Nat) (ihO : StripPO f) (ihA : StripPA f) :
    StripPV (f + 1) := by
  intro s v r h hts
  cases s with
  | nil => rw [parseValue_nil_none] at h; cases h
  | cons c rest =>
    rw [parseValue_cons_eq] at h
    unfold parseValueBody at h
    by_cases h1 : (c == quoteC) = true
    · rw [if_pos h1] at h
      cases hscan : scanString rest with
      | none => rw [hscan] at h; cases h
      | some p =>
        obtain ⟨cs, r1⟩ := p
        rw [hscan] at h
        simp only [] at h
        have h' := h.symm
        rw [Option.some.injEq, Prod.mk.injEq] at h'
        obtain ⟨hv, hr⟩ := h'
        subst hv
        subst hr
        unfold scanString at hscan
        obtain ⟨hlen, hrun⟩ := scanStrip (rest.length + 1) rest [] cs r hscan
        have hkc : 31 < c.toNat := by rw [eq_of_beq h1]; decide
        have hsc : stripControl (c :: rest) = c :: stripControl rest :=
          stripControl_cons_kept _ hkc
        constructor
        · rw [hsc, List.length_cons]
          omega
        · intro g hg
          rw [hsc, List.length_cons] at hg
          obtain ⟨g0, rfl⟩ : ∃ g0, g = g0 + 1 := ⟨g - 1, by omega⟩
          rw [hsc, parseValue_cons_eq]
          unfold parseValueBody
          rw [if_pos h1]
          have hss : scanString (stripControl rest) =
              some (cs, stripControl r) := by
            unfold scanString
            exact hrun _ (by omega)
          rw [hss]
    · rw [if_neg h1] at h
      by_cases h2 : (c == lbraceC) = true
      · rw [if_pos h2] at h
        obtain ⟨hlen, hrun⟩ := ihO rest v r h hts
        have hkc : 31 < c.toNat := by rw [eq_of_beq h2]; decide
        have hsc : stripControl (c :: rest) = c :: stripControl rest :=
          stripControl_cons_kept _ hkc
        constructor
        · rw [hsc, List.length_cons]; omega
        · intro g hg
          rw [hsc, List.length_cons] at hg
          obtain ⟨g0, rfl⟩ : ∃ g0, g = g0 + 1 := ⟨g - 1, by omega⟩
          rw [hsc, parseValue_cons_eq]
          unfold parseValueBody
          rw [if_neg h1, if_pos h2]
          exact hrun g0 (by omega)
      · rw [if_neg h2] at h
        by_cases h3 : (c == '[') = true
        · rw [if_pos h3] at h
          obtain ⟨hlen, hrun⟩ := ihA rest v r h hts
          have hkc : 31 < c.toNat := by rw [eq_of_beq h3]; decide
          have hsc : stripControl (c :: rest) = c :: stripControl rest :=
            stripControl_cons_kept _ hkc
          constructor
          · rw [hsc, List.length_cons]; omega
          · intro g hg
            rw [hsc, List.length_cons] at hg
            obtain ⟨g0, rfl⟩ : ∃ g0, g = g0 + 1 := ⟨g - 1, by omega⟩
            rw [hsc, parseValue_cons_eq]
            unfold parseValueBody
            rw [if_neg h1, if_neg h2, if_pos h3]
            exact hrun g0 (by omega)
        · rw [if_neg h3] at h
          by_cases h4 : (c == 'n') = true
          · rw [if_pos h4] at h
            split at h
            · have h' := h.symm
              rw [Option.some.injEq, Prod.mk.injEq] at h'
              obtain ⟨hv, hr⟩ := h'
              subst hv
              subst hr
              have hkc : 31 < c.toNat := by rw [eq_of_beq h4]; decide
              have hsc : stripControl (c :: 'u' :: 'l' :: 'l' :: r) =
                  c :: 'u' :: 'l' :: 'l' :: stripControl r := by
                rw [stripControl_cons_kept _ hkc,
                  stripControl_cons_kept _ (by decide),
                  stripControl_cons_kept _ (by decide),
                  stripControl_cons_kept _ (by decide)]
              constructor
              · rw [hsc]
                simp only [List.length_cons]
                omega
              · intro g hg
                rw [hsc] at hg
                simp only [List.length_cons] at hg
                obtain ⟨g0, rfl⟩ : ∃ g0, g = g0 + 1 := ⟨g - 1, by omega⟩
                rw [hsc, parseValue_cons_eq]
                unfold parseValueBody
                rw [if_neg h1, if_neg h2, if_neg h3, if_pos h4]
                rfl
            · cases h
          · rw [if_neg h4] at h
            by_cases h5 : (c == 't') = true
            · rw [if_pos h5] at h
              split at h
              · have h' := h.symm
                rw [Option.some.injEq, Prod.mk.injEq] at h'
                obtain ⟨hv, hr⟩ := h'
                subst hv
                subst hr
                have hkc : 31 < c.toNat := by rw [eq_of_beq h5]; decide
                have hsc : stripControl (c :: 'r' :: 'u' :: 'e' :: r) =
                    c :: 'r' :: 'u' :: 'e' :: stripControl r := by
                  rw [stripControl_cons_kept _ hkc,
                    stripControl_cons_kept _ (by decide),
                    stripControl_cons_kept _ (by decide),
                    stripControl_cons_kept _ (by decide)]
                constructor
                · rw [hsc]
                  simp only [List.length_cons]
                  omega
                · intro g hg
                  rw [hsc] at hg
                  simp only [List.length_cons] at hg
                  obtain ⟨g0, rfl⟩ : ∃ g0, g = g0 + 1 := ⟨g - 1, by omega⟩
                  rw [hsc, parseValue_cons_eq]
                  unfold parseValueBody
                  rw [if_neg h1, if_neg h2, if_neg h3, if_neg h4, if_pos h5]
                  rfl
              · cases h
            · rw [if_neg h5] at h
              by_cases h6 : (c == 'f') = true
              · rw [if_pos h6] at h
                split at h
                · have h' := h.symm
                  rw [Option.some.injEq, Prod.mk.injEq] at h'
                  obtain ⟨hv, hr⟩ := h'
                  subst hv
                  subst hr
                  have hkc : 31 < c.toNat := by rw [eq_of_beq h6]; decide
                  have hsc : stripControl (c :: 'a' :: 'l' :: 's' :: 'e' :: r) =
                      c :: 'a' :: 'l' :: 's' :: 'e' :: stripControl r := by
                    rw [stripControl_cons_kept _ hkc,
                      stripControl_cons_kept _ (by decide),
                      stripControl_cons_kept _ (by decide),
                      stripControl_cons_kept _ (by decide),
                      stripControl_cons_kept _ (by decide)]
                  constructor
                  · rw [hsc]
                    simp only [List.length_cons]
                    omega
                  · intro g hg
                    rw [hsc] at hg
                    simp only [List.length_cons] at hg
                    obtain ⟨g0, rfl⟩ : ∃ g0, g = g0 + 1 := ⟨g - 1, by omega⟩
                    rw [hsc, parseValue_cons_eq]
                    unfold parseValueBody
                    rw [if_neg h1, if_neg h2, if_neg h3, if_neg h4, if_neg h5,
                      if_pos h6]
                    rfl
                · cases h
              · rw [if_neg h6] at h
                cases hmn : matchNumber (c :: rest) with
                | some p =>
                  obtain ⟨lex, r1⟩ := p
                  rw [hmn] at h
                  simp only [] at h
                  have h' := h.symm
                  rw [Option.some.injEq, Prod.mk.injEq] at h'
                  obtain ⟨hv, hr⟩ := h'
                  subst hv
                  subst hr
                  obtain ⟨hne, hdec, hkept, hrepl⟩ := matchNumber_strip hmn hts
                  obtain ⟨lex2, hlex⟩ : ∃ lex2, lex = c :: lex2 := by
                    cases lex with
                    | nil => exact absurd rfl hne
                    | cons c0 lex2 =>
                      rw [List.cons_append] at hdec
                      injection hdec with hc0 _
                      exact ⟨lex2, by rw [hc0]⟩
                  have hstrip : stripControl (c :: rest) =
                      lex ++ stripControl r := by
                    rw [hdec, stripControl_append, stripControl_all_kept hkept]
                  constructor
                  · rw [hstrip, List.length_append]
                    have hpos : 0 < lex.length := List.length_pos.mpr hne
                    omega
                  · intro g hg
                    obtain ⟨g0, rfl⟩ : ∃ g0, g = g0 + 1 := ⟨g - 1, by omega⟩
                    have hstrip2 : stripControl (c :: rest) =
                        c :: (lex2 ++ stripControl r) := by
                      rw [hstrip, hlex, List.cons_append]
                    rw [hstrip2, parseValue_cons_eq]
                    unfold parseValueBody
                    rw [if_neg h1, if_neg h2, if_neg h3, if_neg h4, if_neg h5,
                      if_neg h6]
                    have hrepl2 : matchNumber (c :: (lex2 ++ stripControl r)) =
                        some (lex, stripControl r) := by
                      rw [← List.cons_append, ← hlex, ← hstrip]
                      exact hrepl
                    rw [hrepl2]
                | none =>
                  rw [hmn] at h
                  simp only [] at h
                  by_cases h7 : (c == 'N') = true
                  · rw [if_pos h7] at h
                    split at h
                    · have h' := h.symm
                      rw [Option.some.injEq, Prod.mk.injEq] at h'
                      obtain ⟨hv, hr⟩ := h'
                      subst hv
                      subst hr
                      have hC : c = 'N' := eq_of_beq h7
                      subst hC
                      have hsc : stripControl ('N' :: 'a' :: 'N' :: r) =
                          'N' :: 'a' :: 'N' :: stripControl r := by
                        rw [stripControl_cons_kept _ (by decide),
                          stripControl_cons_kept _ (by decide),
                          stripControl_cons_kept _ (by decide)]
                      constructor
                      · rw [hsc]
                        simp only [List.length_cons]
                        omega
                      · intro g hg
                        rw [hsc] at hg
                        simp only [List.length_cons] at hg
                        obtain ⟨g0, rfl⟩ : ∃ g0, g = g0 + 1 := ⟨g - 1, by omega⟩
                        rw [hsc, parseValue_cons_eq]
                        unfold parseValueBody
                        rw [if_neg h1, if_neg h2, if_neg h3, if_neg h4, if_neg h5,
                          if_neg h6]
                        rw [matchNumber_none_head (by decide) (by decide)
                          (by decide) ('a' :: 'N' :: stripControl r)]
                        simp only []
                        rw [if_pos h7]
                    · cases h
                  · rw [if_neg h7] at h
                    by_cases h8 : (c == 'I') = true
                    · rw [if_pos h8] at h
                      split at h
                      · have h' := h.symm
                        rw [Option.some.injEq, Prod.mk.injEq] at h'
                        obtain ⟨hv, hr⟩ := h'
                        subst hv
                        subst hr
                        have hC : c = 'I' := eq_of_beq h8
                        subst hC
                        have hsc : stripControl
                            ('I' :: 'n' :: 'f' :: 'i' :: 'n' :: 'i' :: 't' ::
                              'y' :: r) =
                            'I' :: 'n' :: 'f' :: 'i' :: 'n' :: 'i' :: 't' ::
                              'y' :: stripControl r := by
                          rw [stripControl_cons_kept _ (by decide),
                            stripControl_cons_kept _ (by decide),
                            stripControl_cons_kept _ (by decide),
                            stripControl_cons_kept _ (by decide),
                            stripControl_cons_kept _ (by decide),
                            stripControl_cons_kept _ (by decide),
                            stripControl_cons_kept _ (by decide),
                            stripControl_cons_kept _ (by decide)]
                        constructor
                        · rw [hsc]
                          simp only [List.length_cons]
                          omega
                        · intro g hg
                          rw [hsc] at hg
                          simp only [List.length_cons] at hg
                          obtain ⟨g0, rfl⟩ : ∃ g0, g = g0 + 1 := ⟨g - 1, by omega⟩
                          rw [hsc, parseValue_cons_eq]
                          unfold parseValueBody
                          rw [if_neg h1, if_neg h2, if_neg h3, if_neg h4,
                            if_neg h5, if_neg h6]
                          rw [matchNumber_none_head (by decide) (by decide)
                            (by decide) ('n' :: 'f' :: 'i' :: 'n' :: 'i' ::
                              't' :: 'y' :: stripControl r)]
                          simp only []
                          rw [if_neg h7, if_pos h8]
                      · cases h
                    · rw [if_neg h8] at h
                      by_cases h9 : (c == '-') = true
                      · rw [if_pos h9] at h
                        split at h
                        · have h' := h.symm
                          rw [Option.some.injEq, Prod.mk.injEq] at h'
                          obtain ⟨hv, hr⟩ := h'
                          subst hv
                          subst hr
                          have hC : c = '-' := eq_of_beq h9
                          subst hC
                          have hsc : stripControl
                              ('-' :: 'I' :: 'n' :: 'f' :: 'i' :: 'n' :: 'i' ::
                                't' :: 'y' :: r) =
                              '-' :: 'I' :: 'n' :: 'f' :: 'i' :: 'n' :: 'i' ::
                                't' :: 'y' :: stripControl r := by
                            rw [stripControl_cons_kept _ (by decide),
                              stripControl_cons_kept _ (by decide),
                              stripControl_cons_kept _ (by decide),
                              stripControl_cons_kept _ (by decide),
                              stripControl_cons_kept _ (by decide),
                              stripControl_cons_kept _ (by decide),
                              stripControl_cons_kept _ (by decide),
                              stripControl_cons_kept _ (by decide),
                              stripControl_cons_kept _ (by decide)]
                          constructor
                          · rw [hsc]
                            simp only [List.length_cons]
                            omega
                          · intro g hg
                            rw [hsc] at hg
                            simp only [List.length_cons] at hg
                            obtain ⟨g0, rfl⟩ : ∃ g0, g = g0 + 1 :=
                              ⟨g - 1, by omega⟩
                            rw [hsc, parseValue_cons_eq]
                            unfold parseValueBody
                            rw [if_neg h1, if_neg h2, if_neg h3, if_neg h4,
                              if_neg h5, if_neg h6]
                            rw [matchNumber_minus_none (by
                              intro d t2 heq
                              injection heq with hd _
                              subst hd
                              exact ⟨by decide, by decide⟩)]
                            simp only []
                            rw [if_neg h7, if_neg h8, if_pos h9]
                        · cases h
                      · rw [if_neg h9] at h
                        cases h

theorem stripObject_step (f : Nat) (ihM : StripPM f) : StripPO (f + 1) := by
  intro s v r h hts
  rw [parseObjectBody_succ_eq] at h
  unfold parseObjectBodyB at h
  cases hws : skipWs s with
  | nil => rw [hws] at h; cases h
  | cons c r1 =>
    rw [hws] at h
    simp only [] at h
    by_cases hc1 : (c == rbraceC) = true
    · rw [if_pos hc1] at h
      have h' := h.symm
      rw [Option.some.injEq, Prod.mk.injEq] at h'
      obtain ⟨hv, hr⟩ := h'
      subst hv
      subst hr
      have hkc : 31 < c.toNat := by rw [eq_of_beq hc1]; decide
      have hstrip := skipWs_strip hkc hws
      have hle : (stripControl r).length + 1 ≤ (stripControl s).length := by
        have h2 := strip_skipWs_le s
        rw [hws, stripControl_cons_kept _ hkc, List.length_cons] at h2
        exact h2
      constructor
      · omega
      · intro g hg
        obtain ⟨g0, rfl⟩ : ∃ g0, g = g0 + 1 := ⟨g - 1, by omega⟩
        rw [parseObjectBody_succ_eq]
        unfold parseObjectBodyB
        rw [hstrip]
        simp only []
        rw [if_pos hc1]
    · rw [if_neg hc1] at h
      by_cases hc2 : (c == quoteC) = true
      · rw [if_pos hc2] at h
        obtain ⟨hlen, hrun⟩ := ihM r1 [] v r h hts
        have hkc : 31 < c.toNat := by rw [eq_of_beq hc2]; decide
        have hstrip := skipWs_strip hkc hws
        have hle : (stripControl r1).length + 1 ≤ (stripControl s).length := by
          have h2 := strip_skipWs_le s
          rw [hws, stripControl_cons_kept _ hkc, List.length_cons] at h2
          exact h2
        constructor
        · omega
        · intro g hg
          obtain ⟨g0, rfl⟩ : ∃ g0, g = g0 + 1 := ⟨g - 1, by omega⟩
          rw [parseObjectBody_succ_eq]
          unfold parseObjectBodyB
          rw [hstrip]
          simp only []
          rw [if_neg hc1, if_pos hc2]
          exact hrun g0 (by omega)
      · rw [if_neg hc2] at h
        cases h

theorem stripArray_step (f : Nat) (ihE : StripPE f) : StripPA (f + 1) := by
  intro s v r h hts
  rw [parseArrayBody_succ_eq] at h
  unfold parseArrayBodyB at h
  cases hws : skipWs s with
  | nil => rw [hws] at h; cases h
  | cons c r1 =>
    rw [hws] at h
    simp only [] at h
    by_cases hc : (c == ']') = true
    · rw [if_pos hc] at h
      have h' := h.symm
      rw [Option.some.injEq, Prod.mk.injEq] at h'
      obtain ⟨hv, hr⟩ := h'
      subst hv
      subst hr
      have hkc : 31 < c.toNat := by rw [eq_of_beq hc]; decide
      have hstrip := skipWs_strip hkc hws
      have hle : (stripControl r).length + 1 ≤ (stripControl s).length := by
        have h2 := strip_skipWs_le s
        rw [hws, stripControl_cons_kept _ hkc, List.length_cons] at h2
        exact h2
      constructor
      · omega
      · intro g hg
        obtain ⟨g0, rfl⟩ : ∃ g0, g = g0 + 1 := ⟨g - 1, by omega⟩
        rw [parseArrayBody_succ_eq]
        unfold parseArrayBodyB
        rw [hstrip]
        simp only []
        rw [if_pos hc]
    · rw [if_neg hc] at h
      obtain ⟨hlen, hrun⟩ := ihE (c :: r1) [] v r h hts
      have hkc : 31 < c.toNat := parseElems_head_kept h
      have hstrip := skipWs_strip hkc hws
      have hsc : stripControl (c :: r1) = c :: stripControl r1 :=
        stripControl_cons_kept _ hkc
      have hle : (stripControl r1).length + 1 ≤ (stripControl s).length := by
        have h2 := strip_skipWs_le s
        rw [hws, hsc, List.length_cons] at h2
        exact h2
      rw [hsc, List.length_cons] at hlen
      constructor
      · omega
      · intro g hg
        obtain ⟨g0, rfl⟩ : ∃ g0, g = g0 + 1 := ⟨g - 1, by omega⟩
        rw [parseArrayBody_succ_eq]
        unfold parseArrayBodyB
        rw [hstrip]
        simp only []
        rw [if_neg hc]
        have hrun2 := hrun g0 (by rw [hsc, List.length_cons]; omega)
        rw [hsc] at hrun2
        exact hrun2

theorem stripElems_step (f : Nat) (ihV : StripPV f) (ihE : StripPE f) :
    StripPE (f + 1) := by
  intro s acc v r h hts
  rw [parseElems_succ_eq] at h
  unfold parseElemsB at h
  cases hpv : parseValue f s with
  | none => rw [hpv] at h; cases h
  | some q =>
    obtain ⟨vv, r1⟩ := q
    rw [hpv] at h
    simp only [] at h
    cases hws : skipWs r1 with
    | nil => rw [hws] at h; cases h
    | cons c r2 =>
      rw [hws] at h
      simp only [] at h
      by_cases hc : (c == ']') = true
      · rw [if_pos hc] at h
        have h' := h.symm
        rw [Option.some.injEq, Prod.mk.injEq] at h'
        obtain ⟨hv, hr⟩ := h'
        subst hv
        subst hr
        have hkc : 31 < c.toNat := by rw [eq_of_beq hc]; decide
        have hts1 : tailSafe r1 := tailSafe_of_delim hkc
          (not_numExtChar_of (by rw [eq_of_beq hc]; decide)
            (by rw [eq_of_beq hc]; decide) (by rw [eq_of_beq hc]; decide)
            (by rw [eq_of_beq hc]; decide)) r1 hws
        obtain ⟨hlenV, hrunV⟩ := ihV s vv r1 hpv hts1
        have hstrip := skipWs_strip hkc hws
        have hle : (stripControl r).length + 1 ≤ (stripControl r1).length := by
          have h2 := strip_skipWs_le r1
          rw [hws, stripControl_cons_kept _ hkc, List.length_cons] at h2
          exact h2
        constructor
        · omega
        · intro g hg
          obtain ⟨g0, rfl⟩ : ∃ g0, g = g0 + 1 := ⟨g - 1, by omega⟩
          rw [parseElems_succ_eq]
          unfold parseElemsB
          rw [hrunV g0 (by omega)]
          simp only []
          rw [hstrip]
          simp only []
          rw [if_pos hc]
      · by_cases hcc : (c == ',') = true
        · rw [if_neg hc, if_pos hcc] at h
          have hkc : 31 < c.toNat := by rw [eq_of_beq hcc]; decide
          have hts1 : tailSafe r1 := tailSafe_of_delim hkc
            (not_numExtChar_of (by rw [eq_of_beq hcc]; decide)
              (by rw [eq_of_beq hcc]; decide) (by rw [eq_of_beq hcc]; decide)
              (by rw [eq_of_beq hcc]; decide)) r1 hws
          obtain ⟨hlenV, hrunV⟩ := ihV s vv r1 hpv hts1
          obtain ⟨hlenE, hrunE⟩ := ihE (skipWs r2) (acc ++ [vv]) v r h hts
          have hstrip := skipWs_strip hkc hws
          have hle : (stripControl r2).length + 1 ≤ (stripControl r1).length := by
            have h2 := strip_skipWs_le r1
            rw [hws, stripControl_cons_kept _ hkc, List.length_cons] at h2
            exact h2
          cases hws2 : skipWs r2 with
          | nil =>
            rw [hws2, parseElems_nil_none] at h
            cases h
          | cons d r3 =>
            have hdk : 31 < d.toNat := by
              rw [hws2] at h
              exact parseElems_head_kept h
            have hstrip2 := skipWs_strip hdk hws2
            have hsd : stripControl (d :: r3) = d :: stripControl r3 :=
              stripControl_cons_kept _ hdk
            rw [hws2] at hlenE hrunE
            rw [hsd] at hlenE hrunE
            rw [List.length_cons] at hlenE
            have hle2 : (stripControl r3).length + 1 ≤
                (stripControl r2).length := by
              have h2 := strip_skipWs_le r2
              rw [hws2, hsd, List.length_cons] at h2
              exact h2
            constructor
            · omega
            · intro g hg
              obtain ⟨g0, rfl⟩ : ∃ g0, g = g0 + 1 := ⟨g - 1, by omega⟩
              rw [parseElems_succ_eq]
              unfold parseElemsB
              rw [hrunV g0 (by omega)]
              simp only []
              rw [hstrip]
              simp only []
              rw [if_neg hc, if_pos hcc]
              rw [hstrip2]
              exact hrunE g0 (by rw [List.length_cons]; omega)
        · rw [if_neg hc, if_neg hcc] at h
          cases h

theorem stripMembers_step (f : Nat) (ihV : StripPV f) (ihM : StripPM f) :
    StripPM (f + 1) := by
  intro s acc v r h hts
  rw [parseMembers_succ_eq] at h
  unfold parseMembersB at h
  cases hscan : scanString s with
  | none => rw [hscan] at h; cases h
  | some p =>
    obtain ⟨key, r1⟩ := p
    rw [hscan] at h
    simp only [] at h
    unfold scanString at hscan
    obtain ⟨hlenS, hrunS⟩ := scanStrip (s.length + 1) s [] key r1 hscan
    have hssS : scanString (stripControl s) = some (key, stripControl r1) := by
      unfold scanString
      exact hrunS _ (by omega)
    cases hws1 : skipWs r1 with
    | nil => rw [hws1] at h; cases h
    | cons c2 r2 =>
      rw [hws1] at h
      simp only [] at h
      by_cases hc2 : (c2 == ':') = true
      · rw [if_pos hc2] at h
        have hk2 : 31 < c2.toNat := by rw [eq_of_beq hc2]; decide
        have hstrip1 := skipWs_strip hk2 hws1
        have hle1 : (stripControl r2).length + 1 ≤ (stripControl r1).length := by
          have h2 := strip_skipWs_le r1
          rw [hws1, stripControl_cons_kept _ hk2, List.length_cons] at h2
          exact h2
        cases hpv : parseValue f (skipWs r2) with
        | none => rw [hpv] at h; cases h
        | some q =>
          obtain ⟨vv, r3⟩ := q
          rw [hpv] at h
          simp only [] at h
          cases hws2 : skipWs r2 with
          | nil => rw [hws2, parseValue_nil_none] at hpv; cases hpv
          | cons d r2b =>
            rw [hws2] at hpv
            have hdk : 31 < d.toNat := parseValue_head_kept hpv
            have hstrip2 := skipWs_strip hdk hws2
            have hsd : stripControl (d :: r2b) = d :: stripControl r2b :=
              stripControl_cons_kept _ hdk
            have hle2 : (stripControl r2b).length + 1 ≤
                (stripControl r2).length := by
              have h2 := strip_skipWs_le r2
              rw [hws2, hsd, List.length_cons] at h2
              exact h2
            cases hws3 : skipWs r3 with
            | nil => rw [hws3] at h; cases h
            | cons c3 r4 =>
              rw [hws3] at h
              simp only [] at h
              by_cases hc3 : (c3 == rbraceC) = true
              · rw [if_pos hc3] at h
                have h' := h.symm
                rw [Option.some.injEq, Prod.mk.injEq] at h'
                obtain ⟨hv, hr⟩ := h'
                subst hv
                subst hr
                have hk3 : 31 < c3.toNat := by rw [eq_of_beq hc3]; decide
                have hts3 : tailSafe r3 := tailSafe_of_delim hk3
                  (not_numExtChar_of (by rw [eq_of_beq hc3]; decide)
                    (by rw [eq_of_beq hc3]; decide)
                    (by rw [eq_of_beq hc3]; decide)
                    (by rw [eq_of_beq hc3]; decide)) r3 hws3
                obtain ⟨hlenV, hrunV⟩ := ihV (d :: r2b) vv r3 hpv hts3
                rw [hsd] at hlenV hrunV
                rw [List.length_cons] at hlenV
                have hstrip3 := skipWs_strip hk3 hws3
                have hle3 : (stripControl r).length + 1 ≤
                    (stripControl r3).length := by
                  have h2 := strip_skipWs_le r3
                  rw [hws3, stripControl_cons_kept _ hk3, List.length_cons] at h2
                  exact h2
                constructor
                · omega
                · intro g hg
                  obtain ⟨g0, rfl⟩ : ∃ g0, g = g0 + 1 := ⟨g - 1, by omega⟩
                  rw [parseMembers_succ_eq]
                  unfold parseMembersB
                  rw [hssS]
                  simp only []
                  rw [hstrip1]
                  simp only []
                  rw [if_pos hc2]
                  rw [hstrip2]
                  rw [hrunV g0 (by rw [List.length_cons]; omega)]
                  simp only []
                  rw [hstrip3]
                  simp only []
                  rw [if_pos hc3]
              · by_cases hc4 : (c3 == ',') = true
                · rw [if_neg hc3, if_pos hc4] at h
                  cases hws4 : skipWs r4 with
                  | nil => rw [hws4] at h; cases h
                  | cons c4 r5 =>
                    rw [hws4] at h
                    simp only [] at h
                    by_cases hq : (c4 == quoteC) = true
                    · rw [if_pos hq] at h
                      have hk3 : 31 < c3.toNat := by rw [eq_of_beq hc4]; decide
                      have hts3 : tailSafe r3 := tailSafe_of_delim hk3
                        (not_numExtChar_of (by rw [eq_of_beq hc4]; decide)
                          (by rw [eq_of_beq hc4]; decide)
                          (by rw [eq_of_beq hc4]; decide)
                          (by rw [eq_of_beq hc4]; decide)) r3 hws3
                      obtain ⟨hlenV, hrunV⟩ := ihV (d :: r2b) vv r3 hpv hts3
                      rw [hsd] at hlenV hrunV
                      rw [List.length_cons] at hlenV
                      have hstrip3 := skipWs_strip hk3 hws3
                      have hle3 : (stripControl r4).length + 1 ≤
                          (stripControl r3).length := by
                        have h2 := strip_skipWs_le r3
                        rw [hws3, stripControl_cons_kept _ hk3,
                          List.length_cons] at h2
                        exact h2
                      have hk4 : 31 < c4.toNat := by rw [eq_of_beq hq]; decide
                      have hstrip4 := skipWs_strip hk4 hws4
                      have hle4 : (stripControl r5).length + 1 ≤
                          (stripControl r4).length := by
                        have h2 := strip_skipWs_le r4
                        rw [hws4, stripControl_cons_kept _ hk4,
                          List.length_cons] at h2
                        exact h2
                      obtain ⟨hlenM, hrunM⟩ :=
                        ihM r5 (insertPair acc key vv) v r h hts
                      constructor
                      · omega
                      · intro g hg
                        obtain ⟨g0, rfl⟩ : ∃ g0, g = g0 + 1 := ⟨g - 1, by omega⟩
                        rw [parseMembers_succ_eq]
                        unfold parseMembersB
                        rw [hssS]
                        simp only []
                        rw [hstrip1]
                        simp only []
                        rw [if_pos hc2]
                        rw [hstrip2]
                        rw [hrunV g0 (by rw [List.length_cons]; omega)]
                        simp only []
                        rw [hstrip3]
                        simp only []
                        rw [if_neg hc3, if_pos hc4]
                        rw [hstrip4]
                        simp only []
                        rw [if_pos hq]
                        exact hrunM g0 (by omega)
                    · rw [if_neg hq] at h
                      cases h
                · rw [if_neg hc3, if_neg hc4] at h
                  cases h
      · rw [if_neg hc2] at h
        cases h

theorem stripParseAll : ∀ f : Nat,
    StripPV f ∧ StripPO f ∧ StripPM f ∧ StripPA f ∧ StripPE f := by
  intro f
  induction f with
  | zero =>
    refine ⟨?_, ?_, ?_, ?_, ?_⟩
    · intro s v r h hts
      rw [show parseValue 0 s = none from rfl] at h
      cases h
    · intro s v r h hts
      rw [show parseObjectBody 0 s = none from rfl] at h
      cases h
    · intro s acc v r h hts
      rw [show parseMembers 0 s acc = none from rfl] at h
      cases h
    · intro s v r h hts
      rw [show parseArrayBody 0 s = none from rfl] at h
      cases h
    · intro s acc v r h hts
      rw [show parseElems 0 s acc = none from rfl] at h
      cases h
  | succ f ih =>
    obtain ⟨ihV, ihO, ihM, ihA, ihE⟩ := ih
    exact ⟨stripValue_step f ihO ihA, stripObject_step f ihM,
      stripMembers_step f ihV ihM, stripArray_step f ihE,
      stripElems_step f ihV ihE⟩

set_option maxHeartbeats 2000000 in
theorem jsonParse_strip {s : List Char} {v : Json} (h : jsonParse s = some v) :
    jsonParse (stripControl s) = some v := by
  unfold jsonParse at h
  cases hpv : parseValue (4 * (skipWs s).length + 8) (skipWs s) with
  | none => rw [hpv] at h; cases h
  | some q =>
    obtain ⟨vv, rest⟩ := q
    rw [hpv] at h
    simp only [] at h
    by_cases hemp : (skipWs rest).isEmpty = true
    · rw [if_pos hemp] at h
      rw [Option.some.injEq] at h
      subst h
      have hwsrest : skipWs rest = [] := by
        cases hx : skipWs rest with
        | nil => rfl
        | cons a b => rw [hx] at hemp; simp [List.isEmpty] at hemp
      have hts : tailSafe rest := tailSafe_of_skipWs_nil hwsrest
      cases hws : skipWs s with
      | nil =>
        rw [hws, parseValue_nil_none] at hpv
        cases hpv
      | cons c s1 =>
        rw [hws] at hpv
        generalize hF : 4 * (c :: s1).length + 8 = F at hpv
        have hkc : 31 < c.toNat := parseValue_head_kept hpv
        obtain ⟨hlen, hrun⟩ := (stripParseAll F).1 (c :: s1) vv rest hpv hts
        unfold jsonParse
        have hstrip : skipWs (stripControl s) = c :: stripControl s1 :=
          skipWs_strip hkc hws
        rw [hstrip]
        have hrun2 := hrun (4 * (c :: stripControl s1).length + 8) (by
          rw [stripControl_cons_kept _ hkc]
          simp only [List.length_cons]
          omega)
        rw [stripControl_cons_kept _ hkc] at hrun2
        rw [hrun2]
        simp only []
        have hstriprest : skipWs (stripControl rest) = [] := by
          have hall : ∀ x ∈ rest, isWsChar x = true := dropWhile_nil_all hwsrest
          have hall2 : ∀ x ∈ stripControl rest, isWsChar x = true := by
            intro x hx
            exact hall x (List.mem_of_mem_filter hx)
          exact all_dropWhile_nil _ hall2
        rw [hstriprest]
        rfl
    · rw [if_neg hemp] at h
      cases h

theorem getLast_decomp {l : List Char} {x : Char} (h : l.getLast? = some x) :
    ∃ l2, l = l2 ++ [x] := by
  induction l with
  | nil => simp at h
  | cons a l ih =>
    cases l with
    | nil =>
      simp [List.getLast?] at h
      exact ⟨[], by rw [h]; rfl⟩
    | cons b l2 =>
      rw [List.getLast?_cons_cons] at h
      obtain ⟨l3, hl3⟩ := ih h
      exact ⟨a :: l3, by rw [List.cons_append, ← hl3]⟩

/-! ### The claims -/

/-- C1, counterexample: the completion `x\x7b \x7b"a":1\x7d` contains
exactly one well-formed JSON object (`\x7b"a":1\x7d`, the strict object
count of the text is 1), surrounded only by prose, yet
`parse_json_response` fails on it, because the greedy span from the
first opening brace also swallows the stray brace in the prose. -/
theorem c1_counterexample :
    c1raw = ('x' :: lbraceC :: [' ']) ++ objA ++ [] ∧
    jsonParse objA = some (Json.obj aKvs) ∧
    isStrictObjStr objA = true ∧
    strictObjCount c1raw = 1 ∧
    App.parse_json_response c1raw = none := by
  refine ⟨rfl, rfl, rfl, ?_, rfl⟩
  decide

/-- C1 (amended): for every completion `pre ++ t ++ post` where `t` is
a text that JSON-decodes to an object, beginning with its opening brace
and ending with its closing brace, and where the surrounding prose has
no opening brace before `t` and no closing brace after it,
`parse_json_response` succeeds and returns exactly that object's
key/value pairs.  Control characters anywhere in the completion,
including inter-token whitespace inside the object text, are deleted
before decoding and do not affect the result. -/
theorem c1_recovery (pre t post : List Char) (kvs : List (List Nat × Json))
    (hparse : jsonParse t = some (Json.obj kvs))
    (hhead : t.head? = some lbraceC)
    (hlast : t.getLast? = some rbraceC)
    (hpre : ∀ c ∈ pre, c ≠ lbraceC)
    (hpost : ∀ c ∈ post, c ≠ rbraceC) :
    App.parse_json_response (pre ++ t ++ post) = some (Json.obj kvs) := by
  obtain ⟨t2, rfl⟩ : ∃ t2, t = lbraceC :: t2 := by
    cases t with
    | nil => simp at hhead
    | cons y ys =>
      refine ⟨ys, ?_⟩
      have hy : y = lbraceC := by simpa using hhead
      rw [hy]
  obtain ⟨t3, ht3⟩ := getLast_decomp hlast
  have hs := jsonParse_strip hparse
  have hshead : (stripControl (lbraceC :: t2)).head? = some lbraceC := by
    rw [stripControl_cons_kept _ (by decide)]
    rfl
  have hslast : (stripControl (lbraceC :: t2)).getLast? = some rbraceC := by
    rw [ht3, stripControl_append,
      show stripControl [rbraceC] = [rbraceC] from rfl]
    exact List.getLast?_concat _
  have hstrip : stripControl (pre ++ (lbraceC :: t2) ++ post) =
      stripControl pre ++ stripControl (lbraceC :: t2) ++
        stripControl post := by
    rw [stripControl_append, stripControl_append]
  have hspan : extractSpan (stripControl (pre ++ (lbraceC :: t2) ++ post)) =
      some (stripControl (lbraceC :: t2)) := by
    rw [hstrip]
    apply extractSpan_parts
    · intro x hx
      exact hpre x (List.mem_of_mem_filter hx)
    · intro x hx
      exact hpost x (List.mem_of_mem_filter hx)
    · exact hshead
    · exact hslast
  unfold App.parse_json_response
  rw [hspan]
  exact hs

/-- C1, witness: a pretty-printed JSON object, with newline control
characters between its tokens, wrapped in brace-free prose, is
recovered exactly. -/
theorem c1_recovery_witness :
    (∃ c ∈ objPretty, c.toNat ≤ 31) ∧
    jsonParse objPretty = some (Json.obj aKvs) ∧
    App.parse_json_response (surePre ++ objPretty ++ doneSuf) =
      some (Json.obj aKvs) :=
  ⟨by decide, rfl,
    c1_recovery surePre objPretty doneSuf aKvs rfl rfl rfl (by decide)
      (by decide)⟩

/-- C2: `parse_json_response` of `app.py` computes exactly strip, then
first-`\x7b`-to-last-`\x7d` span selection, then JSON decode: it
returns `v` exactly when the cleaned text has such a span decoding to
`v`, and fails exactly when no span exists or the span does not
decode. -/
theorem c2_algorithm (s : List Char) :
    (∀ v, App.parse_json_response s = some v ↔
      ∃ u, isSpan (stripControl s) u ∧ jsonParse u = some v) ∧
    (App.parse_json_response s = none ↔
      ∀ u, isSpan (stripControl s) u → jsonParse u = none) := by
  have hEq : App.parse_json_response s = Tasks.parse_json_response (stripControl s) :=
    rfl
  rw [hEq]
  exact tasks_parse_characterization (stripControl s)

/-- C2, witness: the characterisation applied to a concrete completion. -/
theorem c2_algorithm_witness :
    App.parse_json_response objA = some (Json.obj aKvs) ∧
    ∃ u, isSpan (stripControl objA) u ∧ jsonParse u = some (Json.obj aKvs) :=
  ⟨rfl, ((c2_algorithm objA).1 (Json.obj aKvs)).mp rfl⟩

/-- C3, counterexample: on a braceless completion the parser does fail,
but `generate_content` returns the sentinel pair `(None, None)`, not
the empty defaults `("", [])` the claim states. -/
theorem c3_counterexample :
    lbraceC ∉ helloL ∧
    App.parse_json_response helloL = none ∧
    App.generate_content helloL = (none, none) ∧
    App.generate_content helloL ≠ (some (Json.str []), some (Json.arr [])) := by
  refine ⟨by decide, rfl, rfl, ?_⟩
  intro h
  rw [show App.generate_content helloL = (none, none) from rfl] at h
  simp at h

/-- C3 (amended): for every completion with no `\x7b`...`\x7d` span,
`parse_json_response` signals failure by returning `None` (nothing is
raised: the embedding is total), and `generate_content` returns the
sentinel pair `(None, None)` rather than raising. -/
theorem c3_no_span (s : List Char)
    (h : ∀ l m r, s ≠ l ++ lbraceC :: (m ++ rbraceC :: r)) :
    App.parse_json_response s = none ∧ App.generate_content s = (none, none) := by
  have hE := extractSpan_strip_none h
  have hp : App.parse_json_response s = none := by
    unfold App.parse_json_response
    rw [hE]
  refine ⟨hp, ?_⟩
  unfold App.generate_content
  rw [hp]

/-- C3, witness: the braceless completion `hello`. -/
theorem c3_no_span_witness :
    App.parse_json_response helloL = none ∧
    App.generate_content helloL = (none, none) := by
  apply c3_no_span
  intro l m r hEq
  have hmem : lbraceC ∈ helloL := by
    rw [hEq]
    simp
  exact absurd hmem (by decide)

/-- C4, counterexample: a completion that parses to the truthy object
`\x7b"x":1\x7d` lacks the declared key `flashcards`, and
`generate_flashcards` returns the sentinel `None`, not the default `[]`
the claim states. -/
theorem c4_counterexample :
    App.parse_json_response objX = some (Json.obj xKvs) ∧
    dictGet xKvs flashcardsKey = none ∧
    App.generate_flashcards objX = none ∧
    App.generate_flashcards objX ≠ some (Json.arr []) := by
  refine ⟨rfl, rfl, rfl, ?_⟩
  intro h
  rw [show App.generate_flashcards objX = none from rfl] at h
  cases h

/-- C4 (amended): when the completion parses to a non-empty object,
`generate_content` substitutes the defaults `""` for a missing `notes`
key and `[]` for a missing `questions` key; `generate_flashcards`
however returns the failure sentinel `None`, not `[]`, when
`flashcards` is absent. -/
theorem c4_defaults (s : List Char) (kvs : List (List Nat × Json))
    (hp : App.parse_json_response s = some (Json.obj kvs)) (hne : kvs ≠ []) :
    (dictGet kvs notesKey = none →
      (App.generate_content s).1 = some (Json.str [])) ∧
    (dictGet kvs questionsKey = none →
      (App.generate_content s).2 = some (Json.arr [])) ∧
    (dictGet kvs flashcardsKey = none → App.generate_flashcards s = none) := by
  have htr : pyTruthy (Json.obj kvs) = true := by
    cases kvs with
    | nil => exact absurd rfl hne
    | cons p l => rfl
  refine ⟨?_, ?_, ?_⟩
  · intro hd
    unfold App.generate_content
    rw [hp]
    simp [htr, pyGetD, pyGetOpt, hd]
  · intro hd
    unfold App.generate_content
    rw [hp]
    simp [htr, pyGetD, pyGetOpt, hd]
  · intro hd
    unfold App.generate_flashcards
    rw [hp]
    simp [pyHasKey, pyGetOpt, hd]

/-- C4, witness: the object `\x7b"x":1\x7d` lacks all three declared
keys; the content path substitutes defaults, the flashcards path
returns `None`. -/
theorem c4_defaults_witness :
    (App.generate_content objX).1 = some (Json.str []) ∧
    (App.generate_content objX).2 = some (Json.arr []) ∧
    App.generate_flashcards objX = none := by
  have h := c4_defaults objX xKvs rfl (by simp [xKvs])
  exact ⟨h.1 rfl, h.2.1 rfl, h.2.2 rfl⟩

/-- C5: submitting a blank or whitespace-only answer issues no
completion call (`evaluate_answer` is not invoked), surfaces the
empty-input error, and leaves the evaluations mapping unchanged. -/
theorem c5_blank_answer (evaluations : List (List Char × EvalRecord))
    (answer_key question student_answer response_text : List Char)
    (h : ∀ c ∈ student_answer, isPySpace c = true) :
    submitAnswer evaluations answer_key question student_answer response_text =
      SubmitOutcome.mk false true evaluations := by
  unfold submitAnswer
  rw [pyStrip_all_space h]
  rfl

/-- C5, witness: a whitespace-only answer against a nonempty mapping. -/
theorem c5_blank_answer_witness :
    submitAnswer evalsInit q1Key qTxt blankAns respA =
      SubmitOutcome.mk false true evalsInit :=
  c5_blank_answer evalsInit q1Key qTxt blankAns respA (by decide)

/-- C6: submitting answer A and then answer B for the same question
identifier, both evaluating successfully, leaves exactly B's record
under that identifier (lookup returns B's score and feedback, the key
appears exactly once), every other identifier's entry is unchanged, and
the mapping keeps distinct keys. -/
theorem c6_resubmission_overwrites
    (evaluations : List (List Char × EvalRecord))
    (answer_key question ansA ansB respA2 respB2 : List Char)
    (evA evB : Json)
    (hnodup : keysNodup evaluations)
    (hA : (pyStrip ansA).isEmpty = false)
    (hB : (pyStrip ansB).isEmpty = false)
    (hpa : App.parse_json_response respA2 = some evA)
    (hta : pyTruthy evA = true)
    (hpb : App.parse_json_response respB2 = some evB)
    (htb : pyTruthy evB = true) :
    lookupEval ((submitAnswer
        (submitAnswer evaluations answer_key question ansA respA2).evaluations
        answer_key question ansB respB2).evaluations) answer_key =
      some (EvalRecord.mk (pyGetOpt evB scoreKey) (pyGetOpt evB feedbackKey)) ∧
    (∀ k, k ≠ answer_key →
      lookupEval ((submitAnswer
        (submitAnswer evaluations answer_key question ansA respA2).evaluations
        answer_key question ansB respB2).evaluations) k =
        lookupEval evaluations k) ∧
    countKey ((submitAnswer
        (submitAnswer evaluations answer_key question ansA respA2).evaluations
        answer_key question ansB respB2).evaluations) answer_key = 1 ∧
    keysNodup ((submitAnswer
        (submitAnswer evaluations answer_key question ansA respA2).evaluations
        answer_key question ansB respB2).evaluations) := by
  have s1 : (submitAnswer evaluations answer_key question ansA respA2).evaluations =
      setEval evaluations answer_key
        (EvalRecord.mk (pyGetOpt evA scoreKey) (pyGetOpt evA feedbackKey)) := by
    unfold submitAnswer App.evaluate_answer
    rw [hpa]
    simp [hA, hta]
  have s2 : ∀ m : List (List Char × EvalRecord),
      (submitAnswer m answer_key question ansB respB2).evaluations =
      setEval m answer_key
        (EvalRecord.mk (pyGetOpt evB scoreKey) (pyGetOpt evB feedbackKey)) := by
    intro m
    unfold submitAnswer App.evaluate_answer
    rw [hpb]
    simp [hB, htb]
  rw [s1, s2]
  have hnod1 : keysNodup (setEval evaluations answer_key
      (EvalRecord.mk (pyGetOpt evA scoreKey) (pyGetOpt evA feedbackKey))) :=
    keysNodup_setEval hnodup _ _
  refine ⟨lookupEval_setEval_self _ _ _, ?_, ?_, ?_⟩
  · intro k hk
    rw [lookupEval_setEval_ne _ _ _ k hk, lookupEval_setEval_ne _ _ _ k hk]
  · exact countKey_setEval_self _ _ _ hnod1
  · exact keysNodup_setEval hnod1 _ _

/-- C6, witness: score 2 then score 5 for `q1`; the mapping holds only
the second record for `q1` and the `q2` entry is untouched. -/
theorem c6_resubmission_overwrites_witness :
    lookupEval ((submitAnswer
        (submitAnswer evalsInit q1Key qTxt fooAns respA).evaluations
        q1Key qTxt barAns respB).evaluations) q1Key =
      some (EvalRecord.mk (pyGetOpt evBv scoreKey) (pyGetOpt evBv feedbackKey)) ∧
    lookupEval ((submitAnswer
        (submitAnswer evalsInit q1Key qTxt fooAns respA).evaluations
        q1Key qTxt barAns respB).evaluations) q2Key = lookupEval evalsInit q2Key ∧
    countKey ((submitAnswer
        (submitAnswer evalsInit q1Key qTxt fooAns respA).evaluations
        q1Key qTxt barAns respB).evaluations) q1Key = 1 := by
  have hnod : keysNodup evalsInit := by
    intro k
    show List.countP (fun p => p.1 == k) [(q2Key, EvalRecord.mk none none)] ≤ 1
    rw [List.countP_cons]
    cases hq : (q2Key == k) <;> simp [hq]
  have h := c6_resubmission_overwrites evalsInit q1Key qTxt fooAns barAns respA respB
    evAv evBv hnod rfl rfl rfl rfl rfl rfl
  exact ⟨h.1, h.2.1 q2Key (by decide), h.2.2.1⟩

/-- C7, counterexample: when the renderer exits 0 with diagnostics on
standard error but produces no output file, `generate_uml` surfaces the
fixed message `Diagram file not found.`, which does not contain the
renderer's diagnostic text, contradicting the claim that either failure
surfaces the renderer's diagnostic text. -/
theorem c7_counterexample :
    (generate_uml envMissingEnv diagramName).result = none ∧
    (generate_uml envMissingEnv diagramName).tmpRemoved = true ∧
    (generate_uml envMissingEnv diagramName).errorMessage = some umlNotFoundMsg ∧
    containsSeq umlNotFoundMsg envMissingEnv.stderrText = false := by
  refine ⟨rfl, rfl, rfl, ?_⟩
  decide

/-- C7 (amended): `generate_uml` removes the temporary source file on
the success path and on both failure paths; on success it returns
`output_filename` (the call site passes `diagram.png`) with the renamed
image present; a nonzero exit status returns the sentinel after
surfacing the renderer's diagnostic text, while a missing output file
returns the sentinel after surfacing the fixed message `Diagram file
not found.`. -/
theorem c7_uml_cleanup (env : RenderEnv) (output_filename : List Char) :
    (generate_uml env output_filename).tmpRemoved = true ∧
    (env.returncode ≠ 0 →
      (generate_uml env output_filename).result = none ∧
      (generate_uml env output_filename).errorMessage =
        some (umlErrHead ++ env.stderrText)) ∧
    (env.returncode = 0 → env.pngProduced = true →
      (generate_uml env output_filename).result = some output_filename ∧
      (generate_uml env output_filename).outputPngExists = true ∧
      (generate_uml env output_filename).errorMessage = none) ∧
    (env.returncode = 0 → env.pngProduced = false →
      (generate_uml env output_filename).result = none ∧
      (generate_uml env output_filename).errorMessage = some umlNotFoundMsg) := by
  refine ⟨?_, fun hne => ?_, fun h0 hp => ?_, fun h0 hp => ?_⟩
  · unfold generate_uml
    by_cases h : (env.returncode != 0) = true
    · rw [if_pos h]
    · rw [if_neg h]
      by_cases hp : env.pngProduced = true
      · rw [if_pos hp]
      · rw [if_neg hp]
  · have hb : (env.returncode != 0) = true := by simp [bne_iff_ne, hne]
    unfold generate_uml
    rw [if_pos hb]
    exact ⟨rfl, rfl⟩
  · have hb : ¬((env.returncode != 0) = true) := by simp [bne_iff_ne, h0]
    unfold generate_uml
    rw [if_neg hb, if_pos hp]
    exact ⟨rfl, rfl, rfl⟩
  · have hb : ¬((env.returncode != 0) = true) := by simp [bne_iff_ne, h0]
    have hp2 : ¬(env.pngProduced = true) := by simp [hp]
    unfold generate_uml
    rw [if_neg hb, if_neg hp2]
    exact ⟨rfl, rfl⟩

/-- C7, witness: a nonzero-exit run cleans up and surfaces the
diagnostics; a successful run returns `diagram.png` with the image
present. -/
theorem c7_uml_cleanup_witness :
    (generate_uml envFailEnv diagramName).tmpRemoved = true ∧
    (generate_uml envFailEnv diagramName).result = none ∧
    (generate_uml envFailEnv diagramName).errorMessage =
      some (umlErrHead ++ boomTxt) ∧
    (generate_uml envOkEnv diagramName).result = some diagramName ∧
    (generate_uml envOkEnv diagramName).outputPngExists = true := by
  have h1 := c7_uml_cleanup envFailEnv diagramName
  have h2 := c7_uml_cleanup envOkEnv diagramName
  have hne : envFailEnv.returncode ≠ 0 := by decide
  exact ⟨h1.1, (h1.2.1 hne).1, (h1.2.1 hne).2, (h2.2.2.1 rfl rfl).1,
    (h2.2.2.1 rfl rfl).2.1⟩

/-- C8: `evaluate_answer_task` returns exactly the parsed evaluation
record — the decoded JSON object of the completion's brace span — when
the completion parses, and `None` when parsing fails. -/
theorem c8_task_result (question student_answer response_text : List Char) :
    Tasks.evaluate_answer_task question student_answer response_text =
      Tasks.parse_json_response response_text ∧
    (∀ v, Tasks.evaluate_answer_task question student_answer response_text = some v ↔
      ∃ u, isSpan response_text u ∧ jsonParse u = some v) ∧
    (Tasks.evaluate_answer_task question student_answer response_text = none ↔
      ∀ u, isSpan response_text u → jsonParse u = none) :=
  ⟨rfl, (tasks_parse_characterization response_text).1,
    (tasks_parse_characterization response_text).2⟩

/-- C8, witness: the task returns the decoded record on a concrete
evaluation completion. -/
theorem c8_task_result_witness :
    Tasks.evaluate_answer_task qTxt fooAns respA =
      Tasks.parse_json_response respA ∧
    Tasks.parse_json_response respA = some evAv :=
  ⟨(c8_task_result qTxt fooAns respA).1, rfl⟩

/-- C9 (implicit): when `parse_json_response` succeeds but returns a
falsy value (the reachable case is the empty object), the bare
`if parsed:` checks make `generate_content` and `generate_flashcards`
return their failure sentinels instead of extracting keys with
defaults. -/
theorem c9_falsy_like_failure (s : List Char) (v : Json)
    (hp : App.parse_json_response s = some v) (hf : pyTruthy v = false) :
    App.generate_content s = (none, none) ∧ App.generate_flashcards s = none := by
  constructor
  · unfold App.generate_content
    rw [hp]
    simp [hf]
  · unfold App.generate_flashcards
    rw [hp]
    simp [hf]

/-- C9, witness: the completion `\x7b\x7d` parses to the falsy empty
object and both callers return their sentinels. -/
theorem c9_falsy_like_failure_witness :
    App.parse_json_response emptyObjL = some (Json.obj []) ∧
    App.generate_content emptyObjL = (none, none) ∧
    App.generate_flashcards emptyObjL = none := by
  have h := c9_falsy_like_failure emptyObjL (Json.obj []) rfl rfl
  exact ⟨rfl, h.1, h.2⟩

/-- C10, counterexample: on the completion `\x7b\x01\x7d` the `app.py`
parser strips the control character and succeeds with the empty object,
while the `tasks.py` parser, which does not strip, fails: the two
implementations are not equivalent. -/
theorem c10_counterexample :
    App.parse_json_response ctrlObjL = some (Json.obj []) ∧
    Tasks.parse_json_response ctrlObjL = none ∧
    App.parse_json_response ctrlObjL ≠ Tasks.parse_json_response ctrlObjL := by
  refine ⟨rfl, rfl, ?_⟩
  intro h
  rw [show App.parse_json_response ctrlObjL = some (Json.obj []) from rfl,
    show Tasks.parse_json_response ctrlObjL = (none : Option Json) from rfl] at h
  cases h

/-- C10 (amended): the `app.py` parser equals the `tasks.py` parser
composed with control-character stripping; in particular the two
implementations agree on every input free of ASCII control
characters. -/
theorem c10_parsers_agree (s : List Char) :
    App.parse_json_response s = Tasks.parse_json_response (stripControl s) ∧
    ((∀ c ∈ s, 31 < c.toNat) →
      App.parse_json_response s = Tasks.parse_json_response s) := by
  refine ⟨rfl, fun h => ?_⟩
  have hs : stripControl s = s :=
    List.filter_eq_self.mpr (fun a ha => by simpa using h a ha)
  calc App.parse_json_response s
      = Tasks.parse_json_response (stripControl s) := rfl
    _ = Tasks.parse_json_response s := by rw [hs]

/-- C10, witness: a control-character-free input on which both parsers
agree. -/
theorem c10_parsers_agree_witness :
    App.parse_json_response abcL = Tasks.parse_json_response abcL :=
  (c10_parsers_agree abcL).2 (by decide)

end AiTA
